import Mathlib

/-!
Verification of the freecut shader-graph core.

This file gives a shallow embedding, in Lean 4, of the shader-graph builder
(`shader-graph.ts`), the blend-node WGSL math (`blend-node.ts`) and — modelled
from the specification where the implementation file is absent from the
sources — the graph compiler and the pass merger.  Machine floats of the WGSL
code are embedded as exact rationals; JavaScript `Map`s become association
lists in insertion order; methods that `throw` return `Except`.
-/

namespace Freecut

/-- A JavaScript runtime value stored in node parameters and pass uniforms. -/
inductive Value where
  | num : ℚ → Value
  | str : String → Value
  | boolean : Bool → Value
deriving DecidableEq

/-- A `vec4f` of the WGSL shader code, embedded with exact rational components. -/
structure Vec4 where
  r : ℚ
  g : ℚ
  b : ℚ
  a : ℚ
deriving DecidableEq

/-- `blend_multiply` from `blend-node.ts`: multiplies the rgb channels and keeps
the blend alpha. -/
def blend_multiply (base blend : Vec4) : Vec4 :=
  ⟨base.r * blend.r, base.g * blend.g, base.b * blend.b, blend.a⟩

/-- `alpha_composite_over` from `blend-node.ts`: Porter-Duff "over" with a guard
returning transparent black when the output alpha is not positive. -/
def alpha_composite_over (base blend : Vec4) : Vec4 :=
  let outAlpha := blend.a + base.a * (1 - blend.a)
  if outAlpha ≤ 0 then ⟨0, 0, 0, 0⟩
  else
    ⟨(blend.r * blend.a + base.r * base.a * (1 - blend.a)) / outAlpha,
     (blend.g * blend.a + base.g * base.a * (1 - blend.a)) / outAlpha,
     (blend.b * blend.a + base.b * base.a * (1 - blend.a)) / outAlpha,
     outAlpha⟩

/-- The `main` body of the shader built by `createBlendNode`: apply the blend
function, scale the blended alpha by the opacity parameter, then composite the
result over the base color. -/
def blendNodeMain (blendFn : Vec4 → Vec4 → Vec4) (opacity : ℚ)
    (baseColor blendColor : Vec4) : Vec4 :=
  let blended := blendFn baseColor blendColor
  let finalBlend : Vec4 := ⟨blended.r, blended.g, blended.b, blended.a * opacity⟩
  alpha_composite_over baseColor finalBlend

/-- A declared input port of a node (`NodeInput` in `types.ts`). -/
structure NodeInput where
  name : String
  type : String
  required : Bool
deriving DecidableEq

/-- A declared output port of a node (`NodeOutput` in `types.ts`). -/
structure NodeOutput where
  name : String
  type : String
deriving DecidableEq

/-- A user-adjustable parameter of a node (`ParamDef` in `types.ts`). -/
structure ParamDef where
  name : String
  type : String
  default : Value
  min : Option Value := none
  max : Option Value := none
  value : Value
deriving DecidableEq

/-- The shader descriptor of a node (`WGSLFragment` in `types.ts`). -/
structure WGSLFragment where
  functions : String
  main : String
  uniforms : List (String × String)
deriving DecidableEq

/-- A shader-graph node (`ShaderNode` in `types.ts`).  JavaScript string-keyed
records become association lists in key-insertion order. -/
structure ShaderNode where
  id : String
  type : String
  name : String
  inputs : List (String × NodeInput)
  outputs : List (String × NodeOutput)
  params : List (String × ParamDef)
  shader : Option WGSLFragment := none
deriving DecidableEq

/-- The source endpoint of a connection. -/
structure FromEnd where
  nodeId : String
  output : String
deriving DecidableEq

/-- The target endpoint of a connection. -/
structure ToEnd where
  nodeId : String
  input : String
deriving DecidableEq

/-- A directed edge of the graph (`Connection` in `types.ts`). -/
structure Connection where
  id : String
  from_ : FromEnd
  to_ : ToEnd
deriving DecidableEq

/-- The private state of a `ShaderGraphBuilder`: the node `Map` (an association
list in insertion order), the connection array, and the module-level connection
id counter. -/
structure BuilderState where
  graphId : String
  nodes : List (String × ShaderNode)
  connections : List Connection
  connCounter : Nat
deriving DecidableEq

/-- `Map.get`: the value stored under the first matching key. -/
def mapGet {α : Type} (m : List (String × α)) (k : String) : Option α :=
  (m.find? (fun p => p.1 == k)).map Prod.snd

/-- `Map.has`. -/
def mapHas {α : Type} (m : List (String × α)) (k : String) : Bool :=
  (mapGet m k).isSome

/-- `ShaderGraphBuilder.addNode`: fails if the id exists, otherwise stores the
node under its id (a `Map.set` on a fresh key appends). -/
def addNode (s : BuilderState) (node : ShaderNode) : Except String BuilderState :=
  if mapHas s.nodes node.id then
    .error ("Node with id \"" ++ node.id ++ "\" already exists")
  else
    .ok { s with nodes := s.nodes ++ [(node.id, node)] }

/-- `ShaderGraphBuilder.removeNode`: removes all connections touching the node,
then deletes it; returns `false` without changes when the id is absent. -/
def removeNode (s : BuilderState) (nodeId : String) : BuilderState × Bool :=
  if mapHas s.nodes nodeId then
    ({ s with
        connections := s.connections.filter
          (fun c => c.from_.nodeId != nodeId && c.to_.nodeId != nodeId),
        nodes := s.nodes.filter (fun p => p.1 != nodeId) }, true)
  else
    (s, false)

/-- One step of `updateNodeParams`: set the stored value of a declared
parameter; a key that is not declared matches nothing and changes nothing. -/
def setParamValue (ps : List (String × ParamDef)) (key : String) (v : Value) :
    List (String × ParamDef) :=
  ps.map (fun p => if p.1 == key then (p.1, { p.2 with value := v }) else p)

/-- The node produced by `updateNodeParams`: each entry of the argument is
applied in order, mutating only declared parameters. -/
def applyParamUpdates (n : ShaderNode) (updates : List (String × Value)) : ShaderNode :=
  { n with params := updates.foldl (fun acc kv => setParamValue acc kv.1 kv.2) n.params }

/-- `ShaderGraphBuilder.updateNodeParams`. -/
def updateNodeParams (s : BuilderState) (nodeId : String)
    (updates : List (String × Value)) : Except String BuilderState :=
  match mapGet s.nodes nodeId with
  | none => .error ("Node \"" ++ nodeId ++ "\" not found")
  | some _ =>
    .ok { s with nodes := s.nodes.map (fun p =>
        if p.1 == nodeId then (p.1, applyParamUpdates p.2 updates) else p) }

/-- `ShaderGraphBuilder.disconnect`: splice out the first connection with the
given id. -/
def disconnect (s : BuilderState) (connectionId : String) : BuilderState × Bool :=
  match s.connections.findIdx? (fun c => c.id == connectionId) with
  | none => (s, false)
  | some i => ({ s with connections := s.connections.eraseIdx i }, true)

/-- The loop of `canReach` over the outgoing connections of the current node,
parameterized by the recursive visit (the early `return true` of the source
skips the rest of the loop). -/
def canReachStep (f : String → List String → Bool × List String) :
    List Connection → List String → Bool × List String
  | [], visited => (false, visited)
  | c :: cs, visited =>
    match f c.to_.nodeId visited with
    | (true, v') => (true, v')
    | (false, v') => canReachStep f cs v'

/-- The DFS of `wouldCreateCycle`'s inner `canReach`, with an explicit fuel for
termination (the fuel picked in `wouldCreateCycle` is provably never
exhausted).  Returns the reachability verdict and the final visited set. -/
def canReachAux (conns : List Connection) (target : String) :
    Nat → String → List String → Bool × List String
  | 0, _, visited => (false, visited)
  | fuel + 1, start, visited =>
    if start = target then (true, visited)
    else if start ∈ visited then (false, visited)
    else canReachStep (fun start' visited' => canReachAux conns target fuel start' visited')
      (conns.filter (fun c => c.from_.nodeId == start)) (start :: visited)

/-- `ShaderGraphBuilder.wouldCreateCycle`: can the target of the new connection
already reach its source over the given connections? -/
def wouldCreateCycle (conns : List Connection) (newConn : Connection) : Bool :=
  (canReachAux conns newConn.from_.nodeId (conns.length + 2) newConn.to_.nodeId []).1

/-- The lookup for an existing connection occupying the target input. -/
def findOccupant (conns : List Connection) (toNodeId toInput : String) :
    Option Connection :=
  conns.find? (fun c => c.to_.nodeId == toNodeId && c.to_.input == toInput)

/-- The occupant-removal step of `connect`: an existing connection to the
target input is filtered out (by id) before the new edge is considered. -/
def occupantRemoved (conns : List Connection) (toNodeId toInput : String) :
    List Connection :=
  match findOccupant conns toNodeId toInput with
  | some existingConn => conns.filter (fun c => c.id != existingConn.id)
  | none => conns

/-- The connection object built by `connect` from the incremented counter. -/
def freshConnection (counter : Nat) (fromNodeId fromOutput toNodeId toInput : String) :
    Connection :=
  ⟨"conn-" ++ toString counter, ⟨fromNodeId, fromOutput⟩, ⟨toNodeId, toInput⟩⟩

/-- `ShaderGraphBuilder.connect`.  The result pairs the observable builder
state after the call (JavaScript mutates `this.connections` before a possible
`throw`) with the returned connection id or the thrown message. -/
def connect (s : BuilderState) (fromNodeId fromOutput toNodeId toInput : String) :
    BuilderState × Except String String :=
  match mapGet s.nodes fromNodeId with
  | none => (s, .error ("Source node \"" ++ fromNodeId ++ "\" not found"))
  | some fromNode =>
    match mapGet s.nodes toNodeId with
    | none => (s, .error ("Target node \"" ++ toNodeId ++ "\" not found"))
    | some toNode =>
      if (mapGet fromNode.outputs fromOutput).isSome = false then
        (s, .error ("Output \"" ++ fromOutput ++ "\" not found on node \"" ++ fromNodeId ++ "\""))
      else if (mapGet toNode.inputs toInput).isSome = false then
        (s, .error ("Input \"" ++ toInput ++ "\" not found on node \"" ++ toNodeId ++ "\""))
      else
        let conns1 := occupantRemoved s.connections toNodeId toInput
        let counter' := s.connCounter + 1
        let connection := freshConnection counter' fromNodeId fromOutput toNodeId toInput
        if wouldCreateCycle conns1 connection then
          ({ s with connections := conns1, connCounter := counter' },
           .error "Connection would create a cycle in the graph")
        else
          ({ s with connections := conns1 ++ [connection], connCounter := counter' },
           .ok connection.id)

/-- The mutable state of `getTopologicallySorted`'s DFS: the accumulated
result, the set of completed ids and the set of in-progress ids. -/
structure TopoSt where
  result : List ShaderNode
  visited : List String
  visiting : List String
deriving DecidableEq

/-- The loop of `visit` over the input connections of the current node,
visiting each upstream producer, parameterized by the recursive visit (a
thrown error propagates, skipping the rest of the loop). -/
def visitTopoStep (f : String → TopoSt → Except String TopoSt) :
    List Connection → TopoSt → Except String TopoSt
  | [], st => .ok st
  | c :: cs, st =>
    match f c.from_.nodeId st with
    | .error e => .error e
    | .ok st' => visitTopoStep f cs st'

/-- The `visit` closure of `getTopologicallySorted`, with an explicit fuel for
termination (the fuel picked in `getTopologicallySorted` is provably never
exhausted). -/
def visitTopo (s : BuilderState) : Nat → String → TopoSt → Except String TopoSt
  | 0, _, _ => .error "fuel exhausted"
  | fuel + 1, nodeId, st =>
    if nodeId ∈ st.visited then .ok st
    else if nodeId ∈ st.visiting then .error "Cycle detected in graph"
    else
      match visitTopoStep (fun nid st' => visitTopo s fuel nid st')
        (s.connections.filter (fun c => c.to_.nodeId == nodeId))
        { st with visiting := nodeId :: st.visiting } with
      | .error e => .error e
      | .ok st2 =>
        let st3 : TopoSt :=
          { st2 with visiting := st2.visiting.erase nodeId,
                     visited := nodeId :: st2.visited }
        .ok (match mapGet s.nodes nodeId with
             | some n => { st3 with result := st3.result ++ [n] }
             | none => st3)

/-- The loop of `getTopologicallySorted` over all stored node ids. -/
def visitTopoKeys (s : BuilderState) (fuel : Nat) (keys : List String)
    (st : TopoSt) : Except String TopoSt :=
  match keys with
  | [] => .ok st
  | k :: ks =>
    match visitTopo s fuel k st with
    | .error e => .error e
    | .ok st' => visitTopoKeys s fuel ks st'

/-- Every id the DFS of the sort can ever visit: the stored keys and the
source endpoints of connections. -/
def topoIds (s : BuilderState) : List String :=
  (s.nodes.map Prod.fst ++ s.connections.map (fun c => c.from_.nodeId)).dedup

/-- `ShaderGraphBuilder.getTopologicallySorted`: depth-first visit of every
stored node, visiting upstream producers first; an id found in progress again
signals the cycle error. -/
def getTopologicallySorted (s : BuilderState) : Except String (List ShaderNode) :=
  (visitTopoKeys s ((topoIds s).length + 1) (s.nodes.map Prod.fst)
    ⟨[], [], []⟩).map TopoSt.result

/-- The `addNode` replay loop of `ShaderGraphBuilder.fromJSON`. -/
def addNodesFromJSON (s : BuilderState) : List ShaderNode → Except String BuilderState
  | [] => .ok s
  | n :: ns =>
    match addNode s n with
    | .error e => .error e
    | .ok s' => addNodesFromJSON s' ns

/-- `ShaderGraphBuilder.fromJSON`: replays `addNode` for every serialized node,
then restores the serialized connection list directly, without any check. -/
def fromJSON (gid : String) (nodes : List ShaderNode) (conns : List Connection) :
    Except String BuilderState :=
  match addNodesFromJSON ⟨gid, [], [], 0⟩ nodes with
  | .error e => .error e
  | .ok s => .ok { s with connections := s.connections ++ conns }

/-- A render pass produced by the compiler (`CompiledPass` in `types.ts`). -/
structure CompiledPass where
  id : String
  nodes : List String
  shader : String
  inputs : List String
  output : String
  uniforms : List (String × Value)
deriving DecidableEq

/-- A decimal digit rendered as a character. -/
def digitChar (d : Nat) : Char := Char.ofNat (48 + d)

/-- Little-endian decimal digits, by structural recursion on a fuel that the
caller sets to the number itself. -/
def natDigitsAux : Nat → Nat → List Nat
  | 0, _ => []
  | _ + 1, 0 => []
  | fuel + 1, n + 1 => (n + 1) % 10 :: natDigitsAux fuel ((n + 1) / 10)

/-- Little-endian decimal digits of a natural number. -/
def natDigits (n : Nat) : List Nat := natDigitsAux n n

/-- A natural number rendered in decimal, used to synthesize identifiers. -/
def natTag (n : Nat) : String :=
  if n = 0 then "0" else ((natDigits n).reverse.map digitChar).asString

/-- Modelled from the spec: `compiler.ts` is absent from the sources (only its
test file is present).  The synthesized intermediate-texture identifier of the
pass at position `i`, unique to that pass and distinct from the `"screen"`
sentinel (§4.3; the merger tests use the names `temp-1`, `temp-2`, …). -/
def intermediateTexture (i : Nat) : String := "temp-" ++ natTag (i + 1)

/-- Modelled from the spec: the output resource of the pass at position `i` of
`total` — the final pass is forced to the `"screen"` sentinel, every other pass
gets its own intermediate texture (§4.3). -/
def passOutput (total i : Nat) : String :=
  if i + 1 = total then "screen" else intermediateTexture i

/-- Modelled from the spec: the resource identifier feeding a pass — the name
of a graph source, or the intermediate texture of the producer's pass (§4.3). -/
def resourceName (renderableIds : List String) (p : ShaderNode) : String :=
  if p.type == "source" then p.id else intermediateTexture (renderableIds.indexOf p.id)

/-- Modelled from the spec: the input resources of the pass of node `n` — one
per connection feeding `n`, in connection order (§4.3). -/
def passInputs (s : BuilderState) (renderableIds : List String) (n : ShaderNode) :
    List String :=
  (s.connections.filter (fun c => c.to_.nodeId == n.id)).filterMap
    (fun c => (mapGet s.nodes c.from_.nodeId).map (resourceName renderableIds))

/-- Modelled from the spec: one `CompiledPass` per non-structural node in
traversal order, with uniforms copied verbatim from the node's current
parameter values (§4.3). -/
def buildPasses (s : BuilderState) (renderableIds : List String) (total : Nat) :
    Nat → List ShaderNode → List CompiledPass
  | _, [] => []
  | i, n :: rest =>
    { id := "pass-" ++ natTag i,
      nodes := [n.id],
      shader := (match n.shader with
                 | some f => f.functions ++ f.main
                 | none => ""),
      inputs := passInputs s renderableIds n,
      output := passOutput total i,
      uniforms := n.params.map (fun p => (p.1, p.2.value)) } ::
      buildPasses s renderableIds total (i + 1) rest

/-- Modelled from the spec: `GraphCompiler.compile` walks the topologically
sorted node list and emits one pass per node that is not purely structural
(source nodes are consumed as input resources, not passes), forcing the final
pass's output to `"screen"` (§4.3). -/
def compile (s : BuilderState) : Except String (List CompiledPass) :=
  match getTopologicallySorted s with
  | .error e => .error e
  | .ok sorted =>
    let renderable := sorted.filter (fun n => n.type != "source")
    .ok (buildPasses s (renderable.map ShaderNode.id) renderable.length 0 renderable)

/-- The merge category of a pass (`MergeCategory` in `pass-merger.ts`). -/
inductive MergeCategory where
  | color
  | transform
  | blur
  | blend
  | unknown
deriving DecidableEq

/-- Does `name` contain `keyword` as a substring? -/
def nameHas (name keyword : String) : Bool := (name.splitOn keyword).length != 1

/-- Modelled from the spec: `pass-merger.ts` is absent from the sources (only
its test file is present).  Name-pattern classification of a node (§4.4):
color for brightness/contrast/saturation/opacity names, transform for
scale/rotate/translate/transform/flip/crop, blur for any name containing
"blur", blend for any name containing "blend", otherwise unknown. -/
def getNodeCategory (name : String) : MergeCategory :=
  if ["brightness", "contrast", "saturation", "opacity"].any (nameHas name) then .color
  else if ["scale", "rotate", "translate", "transform", "flip", "crop"].any (nameHas name) then
    .transform
  else if nameHas name "blur" then .blur
  else if nameHas name "blend" then .blend
  else .unknown

/-- Modelled from the spec: the category of a pass is the category of its
first categorizable contributing node, or unknown if none match (§4.4). -/
def getPassCategory (p : CompiledPass) : MergeCategory :=
  match p.nodes.find? (fun n => decide (getNodeCategory n ≠ MergeCategory.unknown)) with
  | some n => getNodeCategory n
  | none => .unknown

/-- Modelled from the spec: merge eligibility of pass `a` and the immediately
following pass `b` — `b` reads exactly `a`'s output as its single input, both
passes share the same category, and that category is not unknown (§4.4). -/
def canMergePasses (a b : CompiledPass) : Bool :=
  decide (b.inputs = [a.output]) &&
    decide (getPassCategory a = getPassCategory b) &&
    decide (getPassCategory a ≠ MergeCategory.unknown)

/-- Modelled from the spec: the merged shader concatenates the two code blocks
in order (§4.4). -/
def mergeShaderCode (a b : String) : String := a ++ "\n" ++ b

/-- Modelled from the spec: `mergeTwoPasses` combines the node lists, keeps
`a`'s inputs and `b`'s output, builds the id `merged-A-B`, and namespaces the
uniform maps by pass index (§4.4 and the `mergeTwoPasses` tests). -/
def mergeTwoPasses (a b : CompiledPass) : CompiledPass :=
  { id := "merged-" ++ a.id ++ "-" ++ b.id,
    nodes := a.nodes ++ b.nodes,
    shader := mergeShaderCode a.shader b.shader,
    inputs := a.inputs,
    output := b.output,
    uniforms := a.uniforms.map (fun p => ("pass0_" ++ p.1, p.2)) ++
      b.uniforms.map (fun p => ("pass1_" ++ p.1, p.2)) }

/-- Modelled from the spec: `PassMerger.merge` applied greedily left-to-right,
re-checking eligibility against the newly merged pass (§4.4). -/
def mergePasses : List CompiledPass → List CompiledPass
  | [] => []
  | [p] => [p]
  | a :: b :: rest =>
    if canMergePasses a b then mergePasses (mergeTwoPasses a b :: rest)
    else a :: mergePasses (b :: rest)
termination_by l => l.length

/-- The edge relation of a connection list: `a` feeds `b`. -/
def edgeRel (conns : List Connection) (a b : String) : Prop :=
  ∃ c ∈ conns, c.from_.nodeId = a ∧ c.to_.nodeId = b

/-- Reachability over the connection list (zero or more edges). -/
def Reaches (conns : List Connection) : String → String → Prop :=
  Relation.ReflTransGen (edgeRel conns)

/-- Acyclicity of a connection list: no node lies on a nonempty cycle. -/
def Acyclic (conns : List Connection) : Prop :=
  ∀ a, ¬ Relation.TransGen (edgeRel conns) a a

/-- The builder invariant: at most one connection targets any given
`(nodeId, inputPort)` pair. -/
def AtMostOnePerInput (conns : List Connection) : Prop :=
  conns.Pairwise (fun a b => ¬(a.to_.nodeId = b.to_.nodeId ∧ a.to_.input = b.to_.input))

instance (conns : List Connection) : Decidable (AtMostOnePerInput conns) := by
  unfold AtMostOnePerInput
  infer_instance

/-- The invariant of the topological-sort DFS state: visited and in-progress
sets are well formed, the result lists exactly the stored nodes of completed
ids, and every completed consumer already has its producers completed and
placed earlier in the result. -/
structure TopoInv (s : BuilderState) (st : TopoSt) : Prop where
  visited_nodup : st.visited.Nodup
  visiting_nodup : st.visiting.Nodup
  disj : ∀ x ∈ st.visiting, x ∉ st.visited
  result_ids_nodup : (st.result.map ShaderNode.id).Nodup
  result_stored : ∀ n ∈ st.result, mapGet s.nodes n.id = some n
  visited_in_result : ∀ k ∈ st.visited, ∀ n, mapGet s.nodes k = some n → n ∈ st.result
  result_visited : ∀ n ∈ st.result, n.id ∈ st.visited
  closure : ∀ c ∈ s.connections, c.to_.nodeId ∈ st.visited →
    c.from_.nodeId ∈ st.visited ∧
    (c.from_.nodeId ∈ s.nodes.map Prod.fst → c.to_.nodeId ∈ s.nodes.map Prod.fst →
      (st.result.map ShaderNode.id).indexOf c.from_.nodeId <
        (st.result.map ShaderNode.id).indexOf c.to_.nodeId)

instance {ε α : Type} [DecidableEq ε] [DecidableEq α] : DecidableEq (Except ε α) := fun a b =>
  match a, b with
  | .error x, .error y =>
    if h : x = y then isTrue (by rw [h]) else isFalse (by simp [h])
  | .error _, .ok _ => isFalse (by simp)
  | .ok _, .error _ => isFalse (by simp)
  | .ok x, .ok y =>
    if h : x = y then isTrue (by rw [h]) else isFalse (by simp [h])

/-! ### Theorems about the blend-node math -/

/-- C10: for every pair of RGBA colors, if the Porter-Duff output alpha
`blend.a + base.a * (1 - blend.a)` is at most `0`, then
`alpha_composite_over` returns the all-zero color, so the division in the
"over" formula is guarded and never executed with a non-positive divisor. -/
theorem alpha_composite_over_guarded (base blend : Vec4)
    (h : blend.a + base.a * (1 - blend.a) ≤ 0) :
    alpha_composite_over base blend = ⟨0, 0, 0, 0⟩ := by
  simp only [alpha_composite_over]
  rw [if_pos h]

theorem alpha_composite_over_guarded_witness :
    (0 : ℚ) + 0 * (1 - 0) ≤ 0 ∧
      alpha_composite_over ⟨0, 0, 0, 0⟩ ⟨0, 0, 0, 0⟩ = ⟨0, 0, 0, 0⟩ :=
  ⟨by norm_num, alpha_composite_over_guarded ⟨0, 0, 0, 0⟩ ⟨0, 0, 0, 0⟩ (by norm_num)⟩

/-- Counterexample to C6 as stated: at `base = (1/2,1/2,1/2,1)` and
`blend = (1,1,1,1)` the shader yields `1/2` per channel, not the claimed
`base * (0.5 * blend + 0.5 * base) = 3/8`. -/
theorem multiply_half_opacity_counterexample :
    (blendNodeMain blend_multiply (1 / 2) ⟨1 / 2, 1 / 2, 1 / 2, 1⟩ ⟨1, 1, 1, 1⟩).r =
      1 / 2 ∧
    (blendNodeMain blend_multiply (1 / 2) ⟨1 / 2, 1 / 2, 1 / 2, 1⟩ ⟨1, 1, 1, 1⟩).r ≠
      (1 / 2 : ℚ) * ((1 / 2) * 1 + (1 / 2) * (1 / 2)) := by
  constructor <;> norm_num [blendNodeMain, blend_multiply, alpha_composite_over]

/-- C6 (amended): compositing a "multiply" blend layer at opacity `1/2` over an
opaque base with an opaque blend layer yields, per channel,
`base * (0.5 * blend + 0.5)`. -/
theorem multiply_half_opacity_over_opaque (base blend : Vec4)
    (hbase : base.a = 1) (hblend : blend.a = 1) :
    blendNodeMain blend_multiply (1 / 2) base blend =
      ⟨base.r * ((1 / 2) * blend.r + 1 / 2),
       base.g * ((1 / 2) * blend.g + 1 / 2),
       base.b * ((1 / 2) * blend.b + 1 / 2), 1⟩ := by
  simp only [blendNodeMain, blend_multiply, alpha_composite_over, hbase, hblend]
  norm_num
  ring_nf
  exact ⟨trivial, trivial, trivial⟩

theorem multiply_half_opacity_over_opaque_witness :
    (Vec4.mk (1 / 2) (1 / 2) (1 / 2) 1).a = 1 ∧ (Vec4.mk 1 1 1 1).a = 1 ∧
      blendNodeMain blend_multiply (1 / 2) ⟨1 / 2, 1 / 2, 1 / 2, 1⟩ ⟨1, 1, 1, 1⟩ =
        ⟨(1 / 2) * ((1 / 2) * 1 + 1 / 2), (1 / 2) * ((1 / 2) * 1 + 1 / 2),
         (1 / 2) * ((1 / 2) * 1 + 1 / 2), 1⟩ :=
  ⟨rfl, rfl,
    multiply_half_opacity_over_opaque ⟨1 / 2, 1 / 2, 1 / 2, 1⟩ ⟨1, 1, 1, 1⟩ rfl rfl⟩

/-! ### Theorems about the pass merger -/

/-- C3: `mergeTwoPasses` concatenates the node lists, keeps A's inputs and B's
output (screen sentinel included), builds the id `merged-<A>-<B>`, and its
uniforms hold exactly `pass0_<name> = v` for A's entries and `pass1_<name> = v`
for B's. -/
theorem mergeTwoPasses_spec (a b : CompiledPass) :
    (mergeTwoPasses a b).nodes = a.nodes ++ b.nodes ∧
    (mergeTwoPasses a b).inputs = a.inputs ∧
    (mergeTwoPasses a b).output = b.output ∧
    (mergeTwoPasses a b).id = "merged-" ++ a.id ++ "-" ++ b.id ∧
    ∀ k v, (k, v) ∈ (mergeTwoPasses a b).uniforms ↔
      ((∃ n, (n, v) ∈ a.uniforms ∧ k = "pass0_" ++ n) ∨
       (∃ n, (n, v) ∈ b.uniforms ∧ k = "pass1_" ++ n)) := by
  refine ⟨rfl, rfl, rfl, rfl, fun k v => ?_⟩
  simp only [mergeTwoPasses, List.mem_append, List.mem_map, Prod.mk.injEq]
  constructor
  · rintro (⟨⟨n, w⟩, hm, hk, hv⟩ | ⟨⟨n, w⟩, hm, hk, hv⟩)
    · exact Or.inl ⟨n, by simpa [← hv] using hm, hk.symm⟩
    · exact Or.inr ⟨n, by simpa [← hv] using hm, hk.symm⟩
  · rintro (⟨n, hm, hk⟩ | ⟨n, hm, hk⟩)
    · exact Or.inl ⟨⟨n, v⟩, hm, hk.symm, rfl⟩
    · exact Or.inr ⟨⟨n, v⟩, hm, hk.symm, rfl⟩

-- The characterization of merge eligibility, shared by the C4 theorem.
theorem canMergePasses_eq_true_iff (a b : CompiledPass) :
    canMergePasses a b = true ↔
      (b.inputs = [a.output] ∧ getPassCategory a = getPassCategory b ∧
       getPassCategory a ≠ MergeCategory.unknown) := by
  simp [canMergePasses, and_assoc]

/-- C4: merge eligibility holds exactly when B's inputs are the single-element
list `[A.output]`, the categories agree, and the shared category is not
unknown; consequently a pass whose inputs list does not have length one is
never fused into its predecessor (blend passes take at least two inputs). -/
theorem canMergePasses_spec :
    (∀ a b : CompiledPass, canMergePasses a b = true ↔
      (b.inputs = [a.output] ∧ getPassCategory a = getPassCategory b ∧
       getPassCategory a ≠ MergeCategory.unknown)) ∧
    (∀ a b : CompiledPass, b.inputs.length ≠ 1 → canMergePasses a b = false) := by
  refine ⟨canMergePasses_eq_true_iff, fun a b h => ?_⟩
  cases hcm : canMergePasses a b
  · rfl
  · have h1 := (canMergePasses_eq_true_iff a b).mp hcm
    rw [h1.1] at h
    simp at h

theorem canMergePasses_spec_witness :
    canMergePasses
      ⟨"pass-0", ["brightness-1"], "shader-a", ["source"], "temp-1", []⟩
      ⟨"pass-1", ["blend-1"], "shader-b", ["temp-1", "other-source"], "temp-2", []⟩ = false :=
  canMergePasses_spec.2
    ⟨"pass-0", ["brightness-1"], "shader-a", ["source"], "temp-1", []⟩
    ⟨"pass-1", ["blend-1"], "shader-b", ["temp-1", "other-source"], "temp-2", []⟩
    (by decide)

/-! ### Map lookup lemmas -/

-- Lookup in a list map touched only under one key.
theorem mapGet_map_update {α : Type} (l : List (String × α)) (nid k : String)
    (g : α → α) :
    mapGet (l.map (fun p => if p.1 == nid then (p.1, g p.2) else p)) k =
      if k = nid then (mapGet l nid).map g else mapGet l k := by
  induction l with
  | nil => simp [mapGet]
  | cons p l ih =>
    rcases p with ⟨pk, pv⟩
    by_cases h1 : pk = nid
    · subst h1
      by_cases h2 : k = pk
      · subst h2
        simp [mapGet, List.find?_cons]
      · have hkpk : (pk == k) = false := by simp [Ne.symm h2]
        simp only [List.map_cons, beq_self_eq_true, if_true, mapGet, List.find?_cons, hkpk]
        rw [← mapGet, ← mapGet, ih]
        rw [if_neg h2, if_neg h2]
    · by_cases h2 : k = pk
      · subst h2
        have hne : ¬(k = nid) := fun h => h1 (by rw [← h])
        simp [mapGet, List.find?_cons, h1, hne]
      · have hkpk : (pk == k) = false := by simp [Ne.symm h2]
        have h1' : (pk == nid) = false := by simp [h1]
        simp only [List.map_cons, h1', Bool.false_eq_true, if_false, mapGet,
          List.find?_cons, hkpk]
        rw [← mapGet, ← mapGet, ih]
        rfl

-- Lookup finds a stored pair.
theorem mem_of_mapGet {α : Type} {l : List (String × α)} {k : String} {v : α}
    (h : mapGet l k = some v) : (k, v) ∈ l := by
  unfold mapGet at h
  cases hf : l.find? (fun p => p.1 == k) with
  | none => rw [hf] at h; simp at h
  | some p =>
    rw [hf] at h
    have hm := List.mem_of_find?_eq_some hf
    have hp := List.find?_some hf
    simp only [beq_iff_eq] at hp
    simp only [Option.map_some'] at h
    obtain rfl : p.2 = v := by injection h
    rcases p with ⟨pk, pv⟩
    cases hp
    exact hm

-- A stored pair is found under a nodup key list.
theorem mapGet_of_mem {α : Type} {l : List (String × α)} {k : String} {v : α}
    (hnd : (l.map Prod.fst).Nodup) (h : (k, v) ∈ l) : mapGet l k = some v := by
  induction l with
  | nil => simp at h
  | cons p l ih =>
    rcases p with ⟨pk, pv⟩
    simp only [List.map_cons, List.nodup_cons] at hnd
    rcases List.mem_cons.mp h with heq | hmem
    · obtain ⟨rfl, rfl⟩ : pk = k ∧ pv = v := by
        constructor <;> injection heq <;> simp_all
      simp [mapGet, List.find?_cons]
    · have hk : ¬(pk = k) := by
        intro h'
        subst h'
        exact hnd.1 (List.mem_map.mpr ⟨(pk, v), hmem, rfl⟩)
      have : (pk == k) = false := by simp [hk]
      simp only [mapGet, List.find?_cons, this]
      exact ih hnd.2 hmem

-- Lookup succeeds exactly on stored keys.
theorem mapGet_isSome {α : Type} {l : List (String × α)} {k : String} :
    (mapGet l k).isSome ↔ k ∈ l.map Prod.fst := by
  induction l with
  | nil => simp [mapGet]
  | cons p l ih =>
    rcases p with ⟨pk, pv⟩
    by_cases h : pk = k
    · subst h
      simp [mapGet, List.find?_cons]
    · have : (pk == k) = false := by simp [h]
      simp only [mapGet, List.find?_cons, this, List.map_cons, List.mem_cons]
      rw [← mapGet]
      rw [ih]
      simp [h, Ne.symm h]

/-! ### Parameter update lemmas -/

-- A key absent from an association list has no lookup result.
theorem lookup_eq_none_of_not_mem {α : Type} {l : List (String × α)} {k : String}
    (h : k ∉ l.map Prod.fst) : l.lookup k = none := by
  induction l with
  | nil => rfl
  | cons p l ih =>
    simp only [List.map_cons, List.mem_cons] at h
    push_neg at h
    have : (k == p.1) = false := by simp [h.1]
    simp only [List.lookup, this]
    exact ih h.2

-- The sequential fold of `setParamValue` over updates with distinct keys sets
-- each declared parameter to its looked-up value, leaving the rest intact.
theorem foldl_setParamValue (updates : List (String × Value))
    (hnd : (updates.map Prod.fst).Nodup) (ps : List (String × ParamDef)) :
    updates.foldl (fun acc kv => setParamValue acc kv.1 kv.2) ps =
      ps.map (fun p => (p.1, { p.2 with value := (updates.lookup p.1).getD p.2.value })) := by
  induction updates generalizing ps with
  | nil =>
    simp only [List.foldl_nil, List.lookup_nil, Option.getD_none]
    have : ∀ p ∈ ps, (p.1, { p.2 with value := p.2.value }) = p := by
      intro p _
      rfl
    rw [List.map_congr_left this, List.map_id']
  | cons kv rest ih =>
    rcases kv with ⟨k, v⟩
    simp only [List.map_cons, List.nodup_cons] at hnd
    simp only [List.foldl_cons]
    rw [ih hnd.2]
    simp only [setParamValue, List.map_map]
    refine List.map_congr_left ?_
    intro p _
    by_cases h : p.1 = k
    · have hb : (p.1 == k) = true := by simp [h]
      have hlk : rest.lookup p.1 = none := by
        refine lookup_eq_none_of_not_mem ?_
        rw [h]
        exact hnd.1
      have hlk2 : ((k, v) :: rest).lookup p.1 = some v := by
        have : (p.1 == k) = true := hb
        simp [List.lookup, h]
      simp only [Function.comp_apply, hb, if_true, hlk, hlk2, Option.getD_some,
        Option.getD_none]
    · have hb : (p.1 == k) = false := by simp [h]
      have hlk2 : ((k, v) :: rest).lookup p.1 = rest.lookup p.1 := by
        simp [List.lookup, hb]
      simp only [Function.comp_apply, hb, Bool.false_eq_true, if_false, hlk2]

/-- C9: `updateNodeParams` on a stored node succeeds, changes no connection and
no other node, sets each declared parameter named by the update list to the
supplied value, leaves every other declared parameter unchanged, and silently
ignores unknown keys. -/
theorem updateNodeParams_spec (s : BuilderState) (nodeId : String)
    (node : ShaderNode) (updates : List (String × Value))
    (hnode : mapGet s.nodes nodeId = some node)
    (hnd : (updates.map Prod.fst).Nodup) :
    ∃ s', updateNodeParams s nodeId updates = .ok s' ∧
      s'.graphId = s.graphId ∧
      s'.connections = s.connections ∧
      s'.connCounter = s.connCounter ∧
      (∀ k, k ≠ nodeId → mapGet s'.nodes k = mapGet s.nodes k) ∧
      mapGet s'.nodes nodeId = some { node with params := node.params.map (fun p =>
        (p.1, { p.2 with value := (updates.lookup p.1).getD p.2.value })) } := by
  refine ⟨{ s with nodes := s.nodes.map (fun p =>
      if p.1 == nodeId then (p.1, applyParamUpdates p.2 updates) else p) },
    by rw [updateNodeParams, hnode], rfl, rfl, rfl, ?_, ?_⟩
  · intro k hk
    exact (mapGet_map_update s.nodes nodeId k
      (fun n => applyParamUpdates n updates)).trans (if_neg hk)
  · refine (mapGet_map_update s.nodes nodeId nodeId
      (fun n => applyParamUpdates n updates)).trans ?_
    rw [if_pos rfl, hnode, Option.map_some']
    refine congrArg some ?_
    show { node with params := updates.foldl (fun (acc : List (String × ParamDef)) (kv : String × Value) => setParamValue acc kv.1 kv.2) node.params } = _
    rw [foldl_setParamValue updates hnd node.params]

theorem updateNodeParams_spec_witness :
    mapGet (BuilderState.mk "g" [("e1",
      ⟨"e1", "effect", "brightness", [], [],
        [("amount", ⟨"amount", "number", .num 0, none, none, .num 0⟩)], none⟩)] [] 0).nodes
      "e1" = some ⟨"e1", "effect", "brightness", [], [],
        [("amount", ⟨"amount", "number", .num 0, none, none, .num 0⟩)], none⟩ ∧
    ([("amount", Value.num 1), ("unknownKey", Value.num 2)].map Prod.fst).Nodup ∧
    ∃ s', updateNodeParams (BuilderState.mk "g" [("e1",
      ⟨"e1", "effect", "brightness", [], [],
        [("amount", ⟨"amount", "number", .num 0, none, none, .num 0⟩)], none⟩)] [] 0)
      "e1" [("amount", .num 1), ("unknownKey", .num 2)] = .ok s' ∧
      s'.graphId = "g" ∧ s'.connections = [] ∧ s'.connCounter = 0 ∧
      (∀ k, k ≠ "e1" → mapGet s'.nodes k = mapGet (BuilderState.mk "g" [("e1",
        ⟨"e1", "effect", "brightness", [], [],
          [("amount", ⟨"amount", "number", .num 0, none, none, .num 0⟩)], none⟩)] [] 0).nodes k) ∧
      mapGet s'.nodes "e1" = some
        ⟨"e1", "effect", "brightness", [], [],
          [("amount", ⟨"amount", "number", .num 0, none, none,
            (([("amount", Value.num 1), ("unknownKey", Value.num 2)].lookup "amount").getD
              (Value.num 0))⟩)], none⟩ := by
  refine ⟨rfl, by decide, ?_⟩
  exact updateNodeParams_spec
    (BuilderState.mk "g" [("e1",
      ⟨"e1", "effect", "brightness", [], [],
        [("amount", ⟨"amount", "number", .num 0, none, none, .num 0⟩)], none⟩)] [] 0)
    "e1"
    ⟨"e1", "effect", "brightness", [], [],
      [("amount", ⟨"amount", "number", .num 0, none, none, .num 0⟩)], none⟩
    [("amount", .num 1), ("unknownKey", .num 2)]
    rfl (by decide)

/-! ### The unique-input invariant -/

-- The pairwise target-distinctness relation is symmetric.
theorem targetDistinct_symm :
    Symmetric (fun a b : Connection =>
      ¬(a.to_.nodeId = b.to_.nodeId ∧ a.to_.input = b.to_.input)) := by
  intro a b h hab
  exact h ⟨hab.1.symm, hab.2.symm⟩

-- Occupant removal only drops connections.
theorem occupantRemoved_sublist (conns : List Connection) (tn ti : String) :
    List.Sublist (occupantRemoved conns tn ti) conns := by
  unfold occupantRemoved
  cases findOccupant conns tn ti
  · exact List.Sublist.refl _
  · exact List.filter_sublist _

-- After the occupant removal step of `connect`, no remaining connection
-- targets the input being connected.
theorem no_target_after_occupant_removal {conns : List Connection} {tn ti : String}
    (hInv : AtMostOnePerInput conns) :
    ∀ c ∈ occupantRemoved conns tn ti,
      ¬(c.to_.nodeId = tn ∧ c.to_.input = ti) := by
  unfold occupantRemoved
  cases he : findOccupant conns tn ti with
  | none =>
    intro c hc htarget
    have := List.find?_eq_none.mp he c hc
    simp only [Bool.and_eq_true, beq_iff_eq] at this
    exact this ⟨htarget.1, htarget.2⟩
  | some e =>
    intro c hc htarget
    have hcm := List.mem_filter.mp hc
    have hcid : ¬(c.id = e.id) := by simpa using hcm.2
    have hep := List.find?_some he
    have hem := List.mem_of_find?_eq_some he
    simp only [Bool.and_eq_true, beq_iff_eq] at hep
    by_cases hce : c = e
    · exact hcid (hce ▸ rfl)
    · have := hInv.forall targetDistinct_symm hcm.1 hem hce
      exact this ⟨htarget.1.trans hep.1.symm, htarget.2.trans hep.2.symm⟩

/-- C8: `addNode`, `connect`, `disconnect` and `removeNode` preserve the
invariant that at most one connection targets any `(nodeId, inputPort)` pair;
moreover, a successful `connect` leaves exactly one connection targeting the
connected input. -/
theorem builder_preserves_unique_input :
    (∀ s n s', AtMostOnePerInput s.connections → addNode s n = .ok s' →
      AtMostOnePerInput s'.connections) ∧
    (∀ s fn fo tn ti s' cid, AtMostOnePerInput s.connections →
      connect s fn fo tn ti = (s', .ok cid) →
      AtMostOnePerInput s'.connections ∧
      (s'.connections.filter
        (fun c => c.to_.nodeId == tn && c.to_.input == ti)).length = 1) ∧
    (∀ s cid, AtMostOnePerInput s.connections →
      AtMostOnePerInput (disconnect s cid).1.connections) ∧
    (∀ s nid, AtMostOnePerInput s.connections →
      AtMostOnePerInput (removeNode s nid).1.connections) := by
  refine ⟨?_, ?_, ?_, ?_⟩
  · intro s n s' h hok
    simp only [addNode] at hok
    split at hok
    · exact absurd hok (by simp)
    · cases hok
      exact h
  · intro s fn fo tn ti s' cid hInv heq
    simp only [connect] at heq
    split at heq
    · exact absurd heq (by simp)
    · split at heq
      · exact absurd heq (by simp)
      · split at heq
        · exact absurd heq (by simp)
        · split at heq
          · exact absurd heq (by simp)
          · split at heq
            · exact absurd heq (by simp)
            · injection heq with h1 h2
              subst h1
              have hnotarget := @no_target_after_occupant_removal s.connections tn ti hInv
              constructor
              · refine List.pairwise_append.mpr
                  ⟨hInv.sublist (occupantRemoved_sublist s.connections tn ti), ?_, ?_⟩
                · simp
                · intro a ha b hb hab
                  have hb' : b = freshConnection (s.connCounter + 1) fn fo tn ti := by
                    simpa using hb
                  subst hb'
                  exact hnotarget a ha ⟨hab.1, hab.2⟩
              · show ((occupantRemoved s.connections tn ti ++
                    [freshConnection (s.connCounter + 1) fn fo tn ti]).filter
                      (fun c => c.to_.nodeId == tn && c.to_.input == ti)).length = 1
                rw [List.filter_append]
                have h0 : (occupantRemoved s.connections tn ti).filter
                    (fun c => c.to_.nodeId == tn && c.to_.input == ti) = [] := by
                  rw [List.filter_eq_nil_iff]
                  intro c hc
                  have := hnotarget c hc
                  simpa using this
                rw [h0]
                simp [freshConnection]
  · intro s cid h
    simp only [disconnect]
    split
    · exact h
    · exact h.sublist (List.eraseIdx_sublist _ _)
  · intro s nid h
    simp only [removeNode]
    split
    · exact h.sublist (List.filter_sublist _)
    · exact h

theorem builder_preserves_unique_input_witness :
    AtMostOnePerInput (BuilderState.mk "g"
      [("a", ⟨"a", "source", "Source", [], [("out", ⟨"out", "texture"⟩)], [], none⟩),
       ("b", ⟨"b", "output", "Output", [("in", ⟨"in", "texture", true⟩)], [], [], none⟩)]
      [⟨"c0", ⟨"a", "out"⟩, ⟨"b", "in"⟩⟩] 0).connections ∧
    AtMostOnePerInput
      [(⟨"conn-1", ⟨"a", "out"⟩, ⟨"b", "in"⟩⟩ : Connection)] ∧
    ([(⟨"conn-1", ⟨"a", "out"⟩, ⟨"b", "in"⟩⟩ : Connection)].filter
      (fun c => c.to_.nodeId == "b" && c.to_.input == "in")).length = 1 := by
  refine ⟨by decide, ?_⟩
  have h := builder_preserves_unique_input.2.1
    (BuilderState.mk "g"
      [("a", ⟨"a", "source", "Source", [], [("out", ⟨"out", "texture"⟩)], [], none⟩),
       ("b", ⟨"b", "output", "Output", [("in", ⟨"in", "texture", true⟩)], [], [], none⟩)]
      [⟨"c0", ⟨"a", "out"⟩, ⟨"b", "in"⟩⟩] 0)
    "a" "out" "b" "in"
    (BuilderState.mk "g"
      [("a", ⟨"a", "source", "Source", [], [("out", ⟨"out", "texture"⟩)], [], none⟩),
       ("b", ⟨"b", "output", "Output", [("in", ⟨"in", "texture", true⟩)], [], [], none⟩)]
      [⟨"conn-1", ⟨"a", "out"⟩, ⟨"b", "in"⟩⟩] 1)
    "conn-1" (by decide) (by decide)
  exact h

/-! ### Reachability lemmas -/

-- Removing edges that point into the start node never breaks reachability
-- from that node.
theorem reaches_of_removed_into {conns conns' : List Connection} {t : String}
    (hkeep : ∀ c ∈ conns, c ∈ conns' ∨ c.to_.nodeId = t) :
    ∀ {f : String}, Reaches conns t f → Reaches conns' t f := by
  intro f h
  have main : ∀ a, Relation.ReflTransGen (edgeRel conns) a f →
      Reaches conns' t a → Reaches conns' t f := by
    intro a ha
    induction ha using Relation.ReflTransGen.head_induction_on with
    | refl => exact id
    | head hstep _ ih =>
      intro hta
      rcases hstep with ⟨c, hc, hfrom, hto⟩
      rcases hkeep c hc with hkept | hinto
      · exact ih (hta.tail ⟨c, hkept, hfrom, hto⟩)
      · exact ih (hto ▸ hinto ▸ Relation.ReflTransGen.refl)
  exact main t h Relation.ReflTransGen.refl

/-! ### Injectivity of the synthesized texture names -/

-- The decimal digit characters are pairwise distinct.
theorem digitChar_inj_lt : ∀ d₁ < 10, ∀ d₂ < 10, digitChar d₁ = digitChar d₂ → d₁ = d₂ := by
  decide

-- Mapping digit lists to characters is injective.
theorem map_digitChar_inj : ∀ (l₁ l₂ : List Nat), (∀ d ∈ l₁, d < 10) →
    (∀ d ∈ l₂, d < 10) → l₁.map digitChar = l₂.map digitChar → l₁ = l₂ := by
  intro l₁
  induction l₁ with
  | nil =>
    intro l₂ _ _ h
    cases l₂
    · rfl
    · simp at h
  | cons d l ih =>
    intro l₂ h₁ h₂ h
    cases l₂ with
    | nil => simp at h
    | cons e l' =>
      simp only [List.map_cons, List.cons.injEq] at h
      have hd := digitChar_inj_lt d (h₁ d (by simp)) e (h₂ e (by simp)) h.1
      have ht := ih l' (fun x hx => h₁ x (by simp [hx])) (fun x hx => h₂ x (by simp [hx])) h.2
      rw [hd, ht]

-- The fuel-based digit extraction agrees with `Nat.digits` in base ten.
theorem natDigitsAux_eq_digits : ∀ fuel n, n ≤ fuel → natDigitsAux fuel n = Nat.digits 10 n := by
  intro fuel
  induction fuel with
  | zero =>
    intro n hn
    interval_cases n
    rw [Nat.digits_zero]
    rfl
  | succ fuel ih =>
    intro n hn
    cases n with
    | zero =>
      rw [Nat.digits_zero]
      rfl
    | succ m =>
      have hdiv : (m + 1) / 10 ≤ fuel := by
        have h1 : (m + 1) / 10 < m + 1 := Nat.div_lt_self (by omega) (by omega)
        omega
      rw [show natDigitsAux (fuel + 1) (m + 1) =
        (m + 1) % 10 :: natDigitsAux fuel ((m + 1) / 10) from rfl]
      rw [ih _ hdiv]
      exact (Nat.digits_def' (by norm_num) (by omega)).symm

theorem natDigits_eq_digits (n : Nat) : natDigits n = Nat.digits 10 n :=
  natDigitsAux_eq_digits n n (le_refl n)

-- The decimal renderer is injective.
theorem natTag_injective : Function.Injective natTag := by
  intro m n h
  unfold natTag at h
  rw [natDigits_eq_digits, natDigits_eq_digits] at h
  by_cases hm : m = 0 <;> by_cases hn : n = 0
  · rw [hm, hn]
  · exfalso
    rw [if_pos hm, if_neg hn] at h
    have hdata := congrArg String.data h
    have : List.map digitChar (Nat.digits 10 n).reverse = ['0'] := by
      simpa [List.asString] using hdata.symm
    have hrev : (Nat.digits 10 n).reverse = [0] := by
      refine map_digitChar_inj _ _ ?_ (by decide) (by rw [this]; decide)
      intro d hd
      exact Nat.digits_lt_base (by norm_num) (List.mem_reverse.mp hd)
    have hdig : Nat.digits 10 n = [0] := by
      have := congrArg List.reverse hrev
      simpa using this
    have := Nat.ofDigits_digits 10 n
    rw [hdig] at this
    simp [Nat.ofDigits] at this
    exact hn this.symm
  · exfalso
    rw [if_neg hm, if_pos hn] at h
    have hdata := congrArg String.data h
    have : List.map digitChar (Nat.digits 10 m).reverse = ['0'] := by
      simpa [List.asString] using hdata
    have hrev : (Nat.digits 10 m).reverse = [0] := by
      refine map_digitChar_inj _ _ ?_ (by decide) (by rw [this]; decide)
      intro d hd
      exact Nat.digits_lt_base (by norm_num) (List.mem_reverse.mp hd)
    have hdig : Nat.digits 10 m = [0] := by
      have := congrArg List.reverse hrev
      simpa using this
    have := Nat.ofDigits_digits 10 m
    rw [hdig] at this
    simp [Nat.ofDigits] at this
    exact hm this.symm
  · rw [if_neg hm, if_neg hn] at h
    have hdata := congrArg String.data h
    simp only [List.asString] at hdata
    have hrev := map_digitChar_inj (Nat.digits 10 m).reverse (Nat.digits 10 n).reverse
      (fun d hd => Nat.digits_lt_base (by norm_num) (List.mem_reverse.mp hd))
      (fun d hd => Nat.digits_lt_base (by norm_num) (List.mem_reverse.mp hd)) hdata
    have hdig : Nat.digits 10 m = Nat.digits 10 n := by
      have := congrArg List.reverse hrev
      simpa using this
    exact Nat.digits.injective 10 hdig

-- Distinct pass positions get distinct intermediate texture names.
theorem intermediateTexture_injective : Function.Injective intermediateTexture := by
  intro i j h
  unfold intermediateTexture at h
  have hdata := congrArg String.data h
  rw [String.data_append, String.data_append] at hdata
  have := List.append_cancel_left hdata
  have htag : natTag (i + 1) = natTag (j + 1) := by
    apply congrArg String.mk this
  have := natTag_injective htag
  omega

-- No intermediate texture name collides with the screen sentinel.
theorem intermediateTexture_ne_screen (i : Nat) : intermediateTexture i ≠ "screen" := by
  intro h
  have hdata := congrArg String.data h
  rw [intermediateTexture, String.data_append] at hdata
  simp at hdata

-- If the loop of `canReach` answers `false`, the visited set has grown into a
-- successor-closed set that avoids the target (given the same for the visit).
theorem canReachStep_false_spec (conns : List Connection) (target : String)
    (U : List String) (fuel : Nat)
    (f : String → List String → Bool × List String)
    (hf : ∀ start visited V',
      U.dedup.length < fuel + visited.length →
      visited.Nodup → visited ⊆ U → start ∈ U →
      f start visited = (false, V') →
      visited ⊆ V' ∧ V'.Nodup ∧ V' ⊆ U ∧ start ∈ V' ∧ start ≠ target ∧
      (∀ x ∈ V', x ∉ visited → x ≠ target) ∧
      (∀ x ∈ V', x ∉ visited → ∀ c ∈ conns, c.from_.nodeId = x → c.to_.nodeId ∈ V')) :
    ∀ work visited V',
      (∀ c ∈ work, c.to_.nodeId ∈ U) →
      U.dedup.length < fuel + visited.length →
      visited.Nodup → visited ⊆ U →
      canReachStep f work visited = (false, V') →
      visited ⊆ V' ∧ V'.Nodup ∧ V' ⊆ U ∧
      (∀ x ∈ V', x ∉ visited → x ≠ target) ∧
      (∀ x ∈ V', x ∉ visited → ∀ c ∈ conns, c.from_.nodeId = x → c.to_.nodeId ∈ V') ∧
      (∀ c ∈ work, c.to_.nodeId ∈ V' ∧ c.to_.nodeId ≠ target) := by
  intro work
  induction work with
  | nil =>
    intro visited V' _ _ hnd hsub heq
    simp only [canReachStep] at heq
    injection heq with heq1 heq2
    subst heq2
    exact ⟨fun _ hx => hx, hnd, hsub,
      fun x hx hxv => absurd hx hxv, fun x hx hxv => absurd hx hxv, by simp⟩
  | cons c cs ih =>
    intro visited V' hwork hbound hnd hsub heq
    simp only [canReachStep] at heq
    cases hcall : f c.to_.nodeId visited with
    | mk b v₁ =>
      rw [hcall] at heq
      cases b with
      | true => exact absurd heq (by simp)
      | false =>
        obtain ⟨hsub1, hnd1, hU1, hmem1, hne1, hnew1, hclo1⟩ :=
          hf c.to_.nodeId visited v₁ hbound hnd hsub (hwork c (by simp)) hcall
        have hbound1 : U.dedup.length < fuel + v₁.length := by
          have := (hnd.subperm hsub1).length_le
          omega
        obtain ⟨hsub2, hnd2, hU2, hnew2, hclo2, hwork2⟩ :=
          ih v₁ V' (fun c' hc' => hwork c' (by simp [hc'])) hbound1 hnd1 hU1 heq
        refine ⟨fun x hx => hsub2 (hsub1 hx), hnd2, hU2, ?_, ?_, ?_⟩
        · intro x hx hxv
          by_cases hx1 : x ∈ v₁
          · exact hnew1 x hx1 hxv
          · exact hnew2 x hx hx1
        · intro x hx hxv c' hc' hfrom
          by_cases hx1 : x ∈ v₁
          · exact hsub2 (hclo1 x hx1 hxv c' hc' hfrom)
          · exact hclo2 x hx hx1 c' hc' hfrom
        · intro c' hc'
          rcases List.mem_cons.mp hc' with rfl | hcs
          · exact ⟨hsub2 hmem1, hne1⟩
          · exact hwork2 c' hcs

-- If the DFS of `canReach` answers `false` with enough fuel, the final visited
-- set contains the start, avoids the target, and is closed under successors.
theorem canReachAux_false_spec (conns : List Connection) (target : String)
    (U : List String) (hU : ∀ c ∈ conns, c.to_.nodeId ∈ U) :
    ∀ fuel start visited V',
      U.dedup.length < fuel + visited.length →
      visited.Nodup → visited ⊆ U → start ∈ U →
      canReachAux conns target fuel start visited = (false, V') →
      visited ⊆ V' ∧ V'.Nodup ∧ V' ⊆ U ∧ start ∈ V' ∧ start ≠ target ∧
      (∀ x ∈ V', x ∉ visited → x ≠ target) ∧
      (∀ x ∈ V', x ∉ visited → ∀ c ∈ conns, c.from_.nodeId = x → c.to_.nodeId ∈ V') := by
  intro fuel
  induction fuel with
  | zero =>
    intro start visited V' hbound hnd hsub _ _
    exfalso
    have h1 : visited ⊆ U.dedup := fun x hx => List.mem_dedup.mpr (hsub hx)
    have := (hnd.subperm h1).length_le
    omega
  | succ fuel ih =>
    intro start visited V' hbound hnd hsub hstart heq
    simp only [canReachAux] at heq
    by_cases h1 : start = target
    · rw [if_pos h1] at heq
      exact absurd heq (by simp)
    · rw [if_neg h1] at heq
      by_cases h2 : start ∈ visited
      · rw [if_pos h2] at heq
        injection heq with heq1 heq2
        subst heq2
        exact ⟨fun _ hx => hx, hnd, hsub, h2, h1,
          fun x hx hxv => absurd hx hxv, fun x hx hxv => absurd hx hxv⟩
      · rw [if_neg h2] at heq
        obtain ⟨hsubV, hndV, hUV, hnewV, hcloV, hworkV⟩ :=
          canReachStep_false_spec conns target U fuel _ ih
            (conns.filter (fun c => c.from_.nodeId == start))
            (start :: visited) V'
            (fun c hc => hU c (List.mem_of_mem_filter hc))
            (by simp only [List.length_cons]; omega)
            (List.nodup_cons.mpr ⟨h2, hnd⟩)
            (fun x hx => by
              rcases List.mem_cons.mp hx with rfl | hx'
              · exact hstart
              · exact hsub hx')
            heq
        refine ⟨fun x hx => hsubV (by simp [hx]), hndV, hUV, hsubV (by simp), h1, ?_, ?_⟩
        · intro x hx hxv
          by_cases hxs : x = start
          · exact hxs ▸ h1
          · exact hnewV x hx (by simp [hxs, hxv])
        · intro x hx hxv c hc hfrom
          by_cases hxs : x = start
          · have hcf : c ∈ conns.filter (fun c => c.from_.nodeId == start) := by
              rw [List.mem_filter]
              exact ⟨hc, by simp [hfrom, hxs]⟩
            exact (hworkV c hcf).1
          · exact hcloV x hx (by simp [hxs, hxv]) c hc hfrom

-- Completeness of the cycle-check DFS: an actually reachable target is found.
theorem canReach_complete {conns : List Connection} {t f : String}
    (h : Reaches conns t f) :
    (canReachAux conns f (conns.length + 2) t []).1 = true := by
  by_cases htf : t = f
  · subst htf
    show (canReachAux conns t (conns.length + 1 + 1) t []).1 = true
    simp [canReachAux]
  · cases hres : canReachAux conns f (conns.length + 2) t [] with
    | mk b V' =>
      cases b with
      | true => rfl
      | false =>
        exfalso
        have hUc : ∀ c ∈ conns,
            c.to_.nodeId ∈ t :: conns.map (fun c => c.to_.nodeId) := by
          intro c hc
          exact List.mem_cons_of_mem _ (List.mem_map.mpr ⟨c, hc, rfl⟩)
        have hblen : (t :: conns.map (fun c => c.to_.nodeId)).dedup.length <
            conns.length + 2 + ([] : List String).length := by
          have h1 := (t :: conns.map (fun c => c.to_.nodeId)).dedup_sublist.length_le
          simp only [List.length_cons, List.length_map] at h1
          simpa using Nat.lt_of_le_of_lt h1 (by omega)
        obtain ⟨-, -, -, htV, -, hneV, hcloV⟩ :=
          canReachAux_false_spec conns f (t :: conns.map (fun c => c.to_.nodeId)) hUc
            (conns.length + 2) t [] V' hblen (by simp) (by simp) (by simp) hres
        have hall : ∀ y, Relation.ReflTransGen (edgeRel conns) t y → y ∈ V' := by
          intro y hy
          induction hy with
          | refl => exact htV
          | tail _ hr ih =>
            rcases hr with ⟨cc, hcc, hfrom, hto⟩
            exact hto ▸ hcloV _ ih (by simp) cc hcc hfrom
        exact hneV f (hall f h) (by simp) rfl

-- Under the builder invariants, removing the occupant by id removes exactly
-- the connections targeting the input.
theorem occupantRemoved_eq_filter {conns : List Connection} {tn ti : String}
    (hids : (conns.map Connection.id).Nodup)
    (hInv : AtMostOnePerInput conns) :
    occupantRemoved conns tn ti =
      conns.filter (fun c => !(c.to_.nodeId == tn && c.to_.input == ti)) := by
  unfold occupantRemoved
  cases he : findOccupant conns tn ti with
  | none =>
    refine (List.filter_eq_self.mpr ?_).symm
    intro c hc
    have hfind := List.find?_eq_none.mp he c hc
    cases hx : (c.to_.nodeId == tn && c.to_.input == ti) with
    | false => rfl
    | true => exact absurd hx hfind
  | some e =>
    refine List.filter_congr ?_
    intro c hc
    have hep := List.find?_some he
    have hem := List.mem_of_find?_eq_some he
    simp only [Bool.and_eq_true, beq_iff_eq] at hep
    by_cases htc : c.to_.nodeId = tn ∧ c.to_.input = ti
    · have hce : c = e := by
        by_contra hne
        exact hInv.forall targetDistinct_symm hc hem hne
          ⟨htc.1.trans hep.1.symm, htc.2.trans hep.2.symm⟩
      rw [hce]
      simp [hep.1, hep.2]
    · have hcid : c.id ≠ e.id := by
        intro hid
        have hce : c = e := List.inj_on_of_nodup_map hids hc hem hid
        exact htc ⟨hce ▸ hep.1, hce ▸ hep.2⟩
      have hrhs : (c.to_.nodeId == tn && c.to_.input == ti) = false := by
        cases hcn : (c.to_.nodeId == tn) with
        | false => rw [Bool.false_and]
        | true =>
          cases hcin : (c.to_.input == ti) with
          | false => rw [Bool.and_false]
          | true =>
            exfalso
            exact htc ⟨by simpa using hcn, by simpa using hcin⟩
      simp [hcid, hrhs]

/-- Counterexample to C2 as stated: with connections `m→t` (occupying input
`t.in`) and `t→f`, the failing call `connect f.out → t.in` throws the cycle
error but has already removed the occupant `m→t`, so the connection set after
the failed call differs from the one before. -/
theorem connect_cycle_counterexample :
    (connect
      (BuilderState.mk "g"
        [("f", ⟨"f", "effect", "F", [("in", ⟨"in", "texture", true⟩)],
          [("out", ⟨"out", "texture"⟩)], [], none⟩),
         ("t", ⟨"t", "effect", "T", [("in", ⟨"in", "texture", true⟩)],
          [("out", ⟨"out", "texture"⟩)], [], none⟩),
         ("m", ⟨"m", "source", "M", [], [("out", ⟨"out", "texture"⟩)], [], none⟩)]
        [⟨"c1", ⟨"m", "out"⟩, ⟨"t", "in"⟩⟩, ⟨"c2", ⟨"t", "out"⟩, ⟨"f", "in"⟩⟩] 0)
      "f" "out" "t" "in").2 = .error "Connection would create a cycle in the graph" ∧
    (connect
      (BuilderState.mk "g"
        [("f", ⟨"f", "effect", "F", [("in", ⟨"in", "texture", true⟩)],
          [("out", ⟨"out", "texture"⟩)], [], none⟩),
         ("t", ⟨"t", "effect", "T", [("in", ⟨"in", "texture", true⟩)],
          [("out", ⟨"out", "texture"⟩)], [], none⟩),
         ("m", ⟨"m", "source", "M", [], [("out", ⟨"out", "texture"⟩)], [], none⟩)]
        [⟨"c1", ⟨"m", "out"⟩, ⟨"t", "in"⟩⟩, ⟨"c2", ⟨"t", "out"⟩, ⟨"f", "in"⟩⟩] 0)
      "f" "out" "t" "in").1.connections =
      [⟨"c2", ⟨"t", "out"⟩, ⟨"f", "in"⟩⟩] ∧
    [(⟨"c2", ⟨"t", "out"⟩, ⟨"f", "in"⟩⟩ : Connection)] ≠
      [⟨"c1", ⟨"m", "out"⟩, ⟨"t", "in"⟩⟩, ⟨"c2", ⟨"t", "out"⟩, ⟨"f", "in"⟩⟩] := by
  refine ⟨by decide, by decide, by decide⟩

/-- C2 (amended): when the target node can already reach the source node over
the existing connections, `connect` on existing nodes and ports fails with the
cycle error; the connection set after the failed call equals the set before
minus any connection that previously occupied the target input (in particular
it is unchanged only when that input was unoccupied). -/
theorem connect_cycle_error (s : BuilderState)
    (fromNodeId fromOutput toNodeId toInput : String)
    (fromNode toNode : ShaderNode)
    (hfrom : mapGet s.nodes fromNodeId = some fromNode)
    (hto : mapGet s.nodes toNodeId = some toNode)
    (hfo : (mapGet fromNode.outputs fromOutput).isSome = true)
    (hti : (mapGet toNode.inputs toInput).isSome = true)
    (hids : (s.connections.map Connection.id).Nodup)
    (hInv : AtMostOnePerInput s.connections)
    (hreach : Reaches s.connections toNodeId fromNodeId) :
    connect s fromNodeId fromOutput toNodeId toInput =
      ({ s with
          connections := s.connections.filter
            (fun c => !(c.to_.nodeId == toNodeId && c.to_.input == toInput)),
          connCounter := s.connCounter + 1 },
       .error "Connection would create a cycle in the graph") := by
  have hremoved := @occupantRemoved_eq_filter s.connections toNodeId toInput hids hInv
  have hreach' : Reaches (occupantRemoved s.connections toNodeId toInput)
      toNodeId fromNodeId := by
    refine reaches_of_removed_into ?_ hreach
    intro c hc
    rw [hremoved]
    by_cases htc : c.to_.nodeId = toNodeId
    · exact Or.inr htc
    · refine Or.inl (List.mem_filter.mpr ⟨hc, ?_⟩)
      simp [htc]
  have hwc : wouldCreateCycle (occupantRemoved s.connections toNodeId toInput)
      (freshConnection (s.connCounter + 1) fromNodeId fromOutput toNodeId toInput) = true := by
    unfold wouldCreateCycle freshConnection
    exact canReach_complete hreach'
  simp only [connect, hfrom, hto, hfo, hti, Bool.true_eq_false, if_false]
  rw [hwc]
  simp only [if_true]
  rw [hremoved]

theorem connect_cycle_error_witness :
    connect
      (BuilderState.mk "g"
        [("f", ⟨"f", "effect", "F", [("in", ⟨"in", "texture", true⟩)],
          [("out", ⟨"out", "texture"⟩)], [], none⟩),
         ("t", ⟨"t", "effect", "T", [("in", ⟨"in", "texture", true⟩)],
          [("out", ⟨"out", "texture"⟩)], [], none⟩),
         ("m", ⟨"m", "source", "M", [], [("out", ⟨"out", "texture"⟩)], [], none⟩)]
        [⟨"c1", ⟨"m", "out"⟩, ⟨"t", "in"⟩⟩, ⟨"c2", ⟨"t", "out"⟩, ⟨"f", "in"⟩⟩] 0)
      "f" "out" "t" "in" =
      ({ BuilderState.mk "g"
          [("f", ⟨"f", "effect", "F", [("in", ⟨"in", "texture", true⟩)],
            [("out", ⟨"out", "texture"⟩)], [], none⟩),
           ("t", ⟨"t", "effect", "T", [("in", ⟨"in", "texture", true⟩)],
            [("out", ⟨"out", "texture"⟩)], [], none⟩),
           ("m", ⟨"m", "source", "M", [], [("out", ⟨"out", "texture"⟩)], [], none⟩)]
          [⟨"c1", ⟨"m", "out"⟩, ⟨"t", "in"⟩⟩, ⟨"c2", ⟨"t", "out"⟩, ⟨"f", "in"⟩⟩] 0 with
          connections :=
            [⟨"c1", ⟨"m", "out"⟩, ⟨"t", "in"⟩⟩,
             (⟨"c2", ⟨"t", "out"⟩, ⟨"f", "in"⟩⟩ : Connection)].filter
              (fun c => !(c.to_.nodeId == "t" && c.to_.input == "in")),
          connCounter := 0 + 1 },
       .error "Connection would create a cycle in the graph") := by
  refine connect_cycle_error _ "f" "out" "t" "in"
    ⟨"f", "effect", "F", [("in", ⟨"in", "texture", true⟩)],
      [("out", ⟨"out", "texture"⟩)], [], none⟩
    ⟨"t", "effect", "T", [("in", ⟨"in", "texture", true⟩)],
      [("out", ⟨"out", "texture"⟩)], [], none⟩
    (by decide) (by decide) (by decide) (by decide) (by decide) (by decide) ?_
  exact Relation.ReflTransGen.single
    ⟨⟨"c2", ⟨"t", "out"⟩, ⟨"f", "in"⟩⟩, by decide, rfl, rfl⟩

/-! ### Topological sort correctness -/

-- A stored value is keyed by its own id.
theorem mapGet_id {s : BuilderState} (hids : ∀ p ∈ s.nodes, p.2.id = p.1)
    {k : String} {n : ShaderNode} (h : mapGet s.nodes k = some n) : n.id = k :=
  hids (k, n) (mem_of_mapGet h)

-- The loop of `visit` over the input connections of a node in progress
-- preserves the invariant and completes every producer.
theorem visitTopoStep_spec (s : BuilderState)
    (fuel : Nat) (vId : String)
    (ih : ∀ nodeId st,
      (topoIds s).length < fuel + st.visiting.length →
      nodeId ∈ topoIds s →
      st.visiting ⊆ topoIds s →
      TopoInv s st →
      (∀ u ∈ st.visiting, Relation.TransGen (edgeRel s.connections) nodeId u) →
      ∃ st', visitTopo s fuel nodeId st = .ok st' ∧ TopoInv s st' ∧
        st'.visiting = st.visiting ∧
        (∀ x ∈ st.visited, x ∈ st'.visited) ∧ nodeId ∈ st'.visited ∧
        (∃ tail, st'.result = st.result ++ tail)) :
    ∀ work st,
      (∀ c ∈ work, c ∈ s.connections ∧ c.to_.nodeId = vId) →
      (topoIds s).length < fuel + st.visiting.length →
      st.visiting ⊆ topoIds s →
      TopoInv s st →
      vId ∈ st.visiting →
      (∀ u ∈ st.visiting, u = vId ∨ Relation.TransGen (edgeRel s.connections) vId u) →
      ∃ st', visitTopoStep (fun nid st0 => visitTopo s fuel nid st0) work st = .ok st' ∧
        TopoInv s st' ∧ st'.visiting = st.visiting ∧
        (∀ x ∈ st.visited, x ∈ st'.visited) ∧
        (∃ tail, st'.result = st.result ++ tail) ∧
        (∀ c ∈ work, c.from_.nodeId ∈ st'.visited) := by
  intro work
  induction work with
  | nil =>
    intro st _ _ _ hInv _ _
    exact ⟨st, rfl, hInv, rfl, fun _ h => h, ⟨[], by simp⟩, by simp⟩
  | cons c cs ihw =>
    intro st hwork hbound hsubV hInv hvmem hstack
    obtain ⟨hc, hcv⟩ := hwork c (by simp)
    have hfromMem : c.from_.nodeId ∈ topoIds s := by
      unfold topoIds
      rw [List.mem_dedup]
      exact List.mem_append.mpr (Or.inr (List.mem_map.mpr ⟨c, hc, rfl⟩))
    have hstack' : ∀ u ∈ st.visiting,
        Relation.TransGen (edgeRel s.connections) c.from_.nodeId u := by
      intro u hu
      rcases hstack u hu with rfl | ht
      · exact Relation.TransGen.single ⟨c, hc, rfl, hcv⟩
      · exact Relation.TransGen.head ⟨c, hc, rfl, hcv⟩ ht
    obtain ⟨st₁, heq₁, hInv₁, hvis₁, hmono₁, hmem₁, htail₁⟩ :=
      ih c.from_.nodeId st hbound hfromMem hsubV hInv hstack'
    obtain ⟨st₂, heq₂, hInv₂, hvis₂, hmono₂, htail₂, hwork₂⟩ :=
      ihw st₁ (fun c' hc' => hwork c' (by simp [hc']))
        (by rw [hvis₁]; exact hbound)
        (by rw [hvis₁]; exact hsubV) hInv₁
        (by rw [hvis₁]; exact hvmem)
        (by rw [hvis₁]; exact hstack)
    refine ⟨st₂, ?_, hInv₂, hvis₂.trans hvis₁, fun x hx => hmono₂ x (hmono₁ x hx), ?_, ?_⟩
    · simp only [visitTopoStep, heq₁, heq₂]
    · rcases htail₁ with ⟨t₁, ht₁⟩
      rcases htail₂ with ⟨t₂, ht₂⟩
      exact ⟨t₁ ++ t₂, by rw [ht₂, ht₁, List.append_assoc]⟩
    · intro c' hc'
      rcases List.mem_cons.mp hc' with rfl | hcs
      · exact hmono₂ _ hmem₁
      · exact hwork₂ c' hcs

-- The recursive `visit` of `getTopologicallySorted`: with enough fuel, on an
-- acyclic connection set it succeeds, preserves the invariant, restores the
-- in-progress set, and completes the visited node.
theorem visitTopo_spec (s : BuilderState)
    (hids : ∀ p ∈ s.nodes, p.2.id = p.1)
    (hacyc : Acyclic s.connections) :
    ∀ fuel nodeId st,
      (topoIds s).length < fuel + st.visiting.length →
      nodeId ∈ topoIds s →
      st.visiting ⊆ topoIds s →
      TopoInv s st →
      (∀ u ∈ st.visiting, Relation.TransGen (edgeRel s.connections) nodeId u) →
      ∃ st', visitTopo s fuel nodeId st = .ok st' ∧ TopoInv s st' ∧
        st'.visiting = st.visiting ∧
        (∀ x ∈ st.visited, x ∈ st'.visited) ∧ nodeId ∈ st'.visited ∧
        (∃ tail, st'.result = st.result ++ tail) := by
  intro fuel
  induction fuel with
  | zero =>
    intro nodeId st hbound _ hsubV hInv _
    exfalso
    have h1 : st.visiting ⊆ (topoIds s).dedup := fun x hx =>
      List.mem_dedup.mpr (hsubV hx)
    have h2 := (hInv.visiting_nodup.subperm h1).length_le
    have h3 := (topoIds s).dedup_sublist.length_le
    omega
  | succ fuel ih =>
    intro nodeId st hbound hmem hsubV hInv hstack
    by_cases h1 : nodeId ∈ st.visited
    · exact ⟨st, by simp [visitTopo, h1], hInv, rfl, fun _ h => h, h1, ⟨[], by simp⟩⟩
    · by_cases h2 : nodeId ∈ st.visiting
      · exact absurd (hstack nodeId h2) (hacyc nodeId)
      · have hInv₁ : TopoInv s { st with visiting := nodeId :: st.visiting } :=
          { hInv with
            visiting_nodup := List.nodup_cons.mpr ⟨h2, hInv.visiting_nodup⟩,
            disj := by
              intro x hx
              rcases List.mem_cons.mp hx with rfl | hx'
              · exact h1
              · exact hInv.disj x hx' }
        obtain ⟨st₂, heq₂, hInv₂, hvis₂, hmono₂, htail₂, hwork₂⟩ :=
          visitTopoStep_spec s fuel nodeId ih
            (s.connections.filter (fun c => c.to_.nodeId == nodeId))
            { st with visiting := nodeId :: st.visiting }
            (fun c hcf => ⟨List.mem_of_mem_filter hcf, by
              have := List.of_mem_filter hcf
              simpa using this⟩)
            (by simp only [List.length_cons]; omega)
            (by
              intro x hx
              rcases List.mem_cons.mp hx with rfl | hx'
              · exact hmem
              · exact hsubV hx')
            hInv₁
            (by simp)
            (by
              intro u hu
              rcases List.mem_cons.mp hu with rfl | hu'
              · exact Or.inl rfl
              · exact Or.inr (hstack u hu'))
        have hvis₂' : st₂.visiting = nodeId :: st.visiting := hvis₂
        have hnodev₂ : nodeId ∉ st₂.visited := by
          refine hInv₂.disj nodeId ?_
          rw [hvis₂']
          simp
        have hnodeRes₂ : nodeId ∉ st₂.result.map ShaderNode.id := by
          intro hmem'
          rcases List.mem_map.mp hmem' with ⟨n, hn, hnid⟩
          exact hnodev₂ (hnid ▸ hInv₂.result_visited n hn)
        have herase : st₂.visiting.erase nodeId = st.visiting := by
          rw [hvis₂']
          exact List.erase_cons_head nodeId st.visiting
        have hfromv : ∀ c ∈ s.connections, c.to_.nodeId = nodeId →
            c.from_.nodeId ∈ st₂.visited := by
          intro c hc hcv
          refine hwork₂ c ?_
          rw [List.mem_filter]
          exact ⟨hc, by simp [hcv]⟩
        have hdisj₃ : ∀ x ∈ st.visiting, x ∉ nodeId :: st₂.visited := by
          intro x hx
          rw [List.mem_cons]
          push_neg
          constructor
          · intro hxn
            exact h2 (hxn ▸ hx)
          · refine hInv₂.disj x ?_
            rw [hvis₂']
            exact List.mem_cons_of_mem _ hx
        have hkeyres : ∀ k, k ∈ st₂.visited → k ∈ s.nodes.map Prod.fst →
            k ∈ st₂.result.map ShaderNode.id := by
          intro k hkv hkk
          rcases Option.isSome_iff_exists.mp (mapGet_isSome.mpr hkk) with ⟨m, hm⟩
          exact List.mem_map.mpr ⟨m, hInv₂.visited_in_result k hkv m hm, mapGet_id hids hm⟩
        cases hn : mapGet s.nodes nodeId with
        | some n =>
          have hnid : n.id = nodeId := mapGet_id hids hn
          refine ⟨{ st₂ with visiting := st₂.visiting.erase nodeId,
                             visited := nodeId :: st₂.visited,
                             result := st₂.result ++ [n] }, ?_, ?_, ?_, ?_, ?_, ?_⟩
          · simp only [visitTopo, if_neg h1, if_neg h2, heq₂, hn]
          · refine
              { visited_nodup := List.nodup_cons.mpr ⟨hnodev₂, hInv₂.visited_nodup⟩,
                visiting_nodup := by rw [herase]; exact hInv.visiting_nodup,
                disj := by rw [herase]; exact hdisj₃,
                result_ids_nodup := ?_, result_stored := ?_, visited_in_result := ?_,
                result_visited := ?_, closure := ?_ }
            · rw [List.map_append, List.nodup_append]
              refine ⟨hInv₂.result_ids_nodup, by simp, ?_⟩
              intro a ha
              simp only [List.map_cons, List.map_nil, List.mem_singleton, hnid]
              intro haid
              exact hnodeRes₂ (haid ▸ ha)
            · intro m hm
              rcases List.mem_append.mp hm with hm' | hm'
              · exact hInv₂.result_stored m hm'
              · obtain rfl : m = n := by simpa using hm'
                rw [hnid]
                exact hn
            · intro k hk m hm
              rcases List.mem_cons.mp hk with rfl | hk'
              · obtain rfl : m = n := by
                  rw [hn] at hm
                  injection hm with h
                  exact h.symm
                simp
              · exact List.mem_append.mpr (Or.inl (hInv₂.visited_in_result k hk' m hm))
            · intro m hm
              rcases List.mem_append.mp hm with hm' | hm'
              · exact List.mem_cons_of_mem _ (hInv₂.result_visited m hm')
              · obtain rfl : m = n := by simpa using hm'
                rw [hnid]
                simp
            · intro c hc hcto
              rw [List.map_append]
              rcases List.mem_cons.mp hcto with hton | hto'
              · -- the connection feeds the node just completed
                refine ⟨List.mem_cons_of_mem _ (hfromv c hc hton), ?_⟩
                intro hfk htk
                have hfv : c.from_.nodeId ∈ st₂.visited := hfromv c hc hton
                have hfres := hkeyres _ hfv hfk
                rw [List.indexOf_append_of_mem hfres, hton,
                  List.indexOf_append_of_not_mem hnodeRes₂]
                have := List.indexOf_lt_length.mpr hfres
                simp only [List.map_cons, List.map_nil, hnid, List.indexOf_cons_self]
                omega
              · obtain ⟨hfrom', horder⟩ := hInv₂.closure c hc hto'
                refine ⟨List.mem_cons_of_mem _ hfrom', ?_⟩
                intro hfk htk
                rw [List.indexOf_append_of_mem (hkeyres _ hfrom' hfk),
                  List.indexOf_append_of_mem (hkeyres _ hto' htk)]
                exact horder hfk htk
          · rw [herase]
          · intro x hx
            exact List.mem_cons_of_mem _ (hmono₂ x hx)
          · simp
          · rcases htail₂ with ⟨t, ht⟩
            exact ⟨t ++ [n], by rw [ht, List.append_assoc]⟩
        | none =>
          refine ⟨{ st₂ with visiting := st₂.visiting.erase nodeId,
                             visited := nodeId :: st₂.visited }, ?_, ?_, ?_, ?_, ?_, htail₂⟩
          · simp only [visitTopo, if_neg h1, if_neg h2, heq₂, hn]
          · refine
              { visited_nodup := List.nodup_cons.mpr ⟨hnodev₂, hInv₂.visited_nodup⟩,
                visiting_nodup := by rw [herase]; exact hInv.visiting_nodup,
                disj := by rw [herase]; exact hdisj₃,
                result_ids_nodup := hInv₂.result_ids_nodup,
                result_stored := hInv₂.result_stored,
                visited_in_result := ?_,
                result_visited := fun m hm =>
                  List.mem_cons_of_mem _ (hInv₂.result_visited m hm),
                closure := ?_ }
            · intro k hk m hm
              rcases List.mem_cons.mp hk with rfl | hk'
              · rw [hn] at hm
                exact absurd hm (by simp)
              · exact hInv₂.visited_in_result k hk' m hm
            · intro c hc hcto
              rcases List.mem_cons.mp hcto with hton | hto'
              · refine ⟨List.mem_cons_of_mem _ (hfromv c hc hton), ?_⟩
                intro _ htk
                exfalso
                have := mapGet_isSome.mpr htk
                rw [hton, hn] at this
                exact absurd this (by simp)
              · obtain ⟨hfrom', horder⟩ := hInv₂.closure c hc hto'
                exact ⟨List.mem_cons_of_mem _ hfrom', horder⟩
          · rw [herase]
          · intro x hx
            exact List.mem_cons_of_mem _ (hmono₂ x hx)
          · simp

-- The loop of `getTopologicallySorted` over all stored keys.
theorem visitTopoKeys_spec (s : BuilderState)
    (hids : ∀ p ∈ s.nodes, p.2.id = p.1)
    (hacyc : Acyclic s.connections) :
    ∀ keys st,
      (∀ k ∈ keys, k ∈ topoIds s) →
      st.visiting = [] →
      TopoInv s st →
      ∃ st', visitTopoKeys s ((topoIds s).length + 1) keys st = .ok st' ∧
        TopoInv s st' ∧ st'.visiting = [] ∧
        (∀ x ∈ st.visited, x ∈ st'.visited) ∧
        (∀ k ∈ keys, k ∈ st'.visited) := by
  intro keys
  induction keys with
  | nil =>
    intro st _ hv hInv
    exact ⟨st, rfl, hInv, hv, fun _ h => h, by simp⟩
  | cons k ks ihk =>
    intro st hks hv hInv
    obtain ⟨st₁, heq₁, hInv₁, hvis₁, hmono₁, hmem₁, -⟩ :=
      visitTopo_spec s hids hacyc ((topoIds s).length + 1) k st
        (by rw [hv]; simp only [List.length_nil]; omega)
        (hks k (by simp))
        (by rw [hv]; exact List.nil_subset _)
        hInv
        (by rw [hv]; exact fun u hu => absurd hu (List.not_mem_nil u))
    obtain ⟨st', heq', hInv', hvis', hmono', hmem'⟩ :=
      ihk st₁ (fun k' hk' => hks k' (by simp [hk'])) (hvis₁.trans hv) hInv₁
    refine ⟨st', ?_, hInv', hvis', fun x hx => hmono' x (hmono₁ x hx), ?_⟩
    · simp only [visitTopoKeys, heq₁, heq']
    · intro k' hk'
      rcases List.mem_cons.mp hk' with rfl | hk2
      · exact hmono' _ hmem₁
      · exact hmem' k' hk2

-- Full correctness of `getTopologicallySorted` on acyclic graph states: it
-- succeeds with a permutation of the stored nodes in which every producer
-- precedes its consumers.
theorem getTopologicallySorted_spec (s : BuilderState)
    (hkeys : (s.nodes.map Prod.fst).Nodup)
    (hids : ∀ p ∈ s.nodes, p.2.id = p.1)
    (hacyc : Acyclic s.connections) :
    ∃ l, getTopologicallySorted s = .ok l ∧
      List.Perm l (s.nodes.map Prod.snd) ∧
      ∀ c ∈ s.connections, c.from_.nodeId ∈ s.nodes.map Prod.fst →
        c.to_.nodeId ∈ s.nodes.map Prod.fst →
        (l.map ShaderNode.id).indexOf c.from_.nodeId <
          (l.map ShaderNode.id).indexOf c.to_.nodeId := by
  have hInv₀ : TopoInv s ⟨[], [], []⟩ :=
    { visited_nodup := List.nodup_nil, visiting_nodup := List.nodup_nil,
      disj := by simp, result_ids_nodup := by simp,
      result_stored := by simp, visited_in_result := by simp,
      result_visited := by simp, closure := by simp }
  obtain ⟨st', heq', hInv', hvis', -, hmem'⟩ :=
    visitTopoKeys_spec s hids hacyc (s.nodes.map Prod.fst) ⟨[], [], []⟩
      (fun k hk => by
        unfold topoIds
        rw [List.mem_dedup]
        exact List.mem_append.mpr (Or.inl hk))
      rfl hInv₀
  refine ⟨st'.result, ?_, ?_, ?_⟩
  · unfold getTopologicallySorted
    rw [heq']
    rfl
  · have h1 : st'.result.Nodup := hInv'.result_ids_nodup.of_map _
    have hnodesNodup : s.nodes.Nodup := hkeys.of_map _
    have h2 : (s.nodes.map Prod.snd).Nodup := by
      refine hnodesNodup.map_on ?_
      intro p hp q hq hpq
      have hp1 : p.2.id = p.1 := hids p hp
      have hq1 : q.2.id = q.1 := hids q hq
      have : p.1 = q.1 := by rw [← hp1, ← hq1, hpq]
      rcases p with ⟨pk, pv⟩
      rcases q with ⟨qk, qv⟩
      simp only at hpq this
      rw [this, hpq]
    refine (List.perm_ext_iff_of_nodup h1 h2).mpr ?_
    intro n
    constructor
    · intro hn
      have := mem_of_mapGet (hInv'.result_stored n hn)
      exact List.mem_map.mpr ⟨(n.id, n), this, rfl⟩
    · intro hn
      rcases List.mem_map.mp hn with ⟨⟨k, n'⟩, hp, hsnd⟩
      simp only at hsnd
      subst hsnd
      have hk : k ∈ s.nodes.map Prod.fst := List.mem_map.mpr ⟨(k, n'), hp, rfl⟩
      exact hInv'.visited_in_result k (hmem' k hk) n' (mapGet_of_mem hkeys hp)
  · intro c hc hfk htk
    exact (hInv'.closure c hc (hmem' _ htk)).2 hfk htk

/-- C1: on every graph state with well-formed stored nodes and an acyclic
connection set, `getTopologicallySorted` succeeds and returns a list holding
every stored node exactly once, in which for every connection between stored
nodes the producing node appears strictly before the consuming node. -/
theorem getTopologicallySorted_correct (s : BuilderState)
    (hkeys : (s.nodes.map Prod.fst).Nodup)
    (hids : ∀ p ∈ s.nodes, p.2.id = p.1)
    (hacyc : Acyclic s.connections) :
    ∃ l, getTopologicallySorted s = .ok l ∧
      List.Perm l (s.nodes.map Prod.snd) ∧
      ∀ c ∈ s.connections, c.from_.nodeId ∈ s.nodes.map Prod.fst →
        c.to_.nodeId ∈ s.nodes.map Prod.fst →
        (l.map ShaderNode.id).indexOf c.from_.nodeId <
          (l.map ShaderNode.id).indexOf c.to_.nodeId :=
  getTopologicallySorted_spec s hkeys hids hacyc

theorem getTopologicallySorted_correct_witness :
    ∃ l, getTopologicallySorted (BuilderState.mk "g"
      [("a", ⟨"a", "source", "Source", [], [("out", ⟨"out", "texture"⟩)], [], none⟩),
       ("b", ⟨"b", "output", "Output", [("in", ⟨"in", "texture", true⟩)], [], [], none⟩)]
      [⟨"c0", ⟨"a", "out"⟩, ⟨"b", "in"⟩⟩] 0) = .ok l ∧
      List.Perm l ((BuilderState.mk "g"
        [("a", ⟨"a", "source", "Source", [], [("out", ⟨"out", "texture"⟩)], [], none⟩),
         ("b", ⟨"b", "output", "Output", [("in", ⟨"in", "texture", true⟩)], [], [], none⟩)]
        [⟨"c0", ⟨"a", "out"⟩, ⟨"b", "in"⟩⟩] 0).nodes.map Prod.snd) ∧
      ∀ c ∈ (BuilderState.mk "g"
        [("a", ⟨"a", "source", "Source", [], [("out", ⟨"out", "texture"⟩)], [], none⟩),
         ("b", ⟨"b", "output", "Output", [("in", ⟨"in", "texture", true⟩)], [], [], none⟩)]
        [⟨"c0", ⟨"a", "out"⟩, ⟨"b", "in"⟩⟩] 0).connections,
        c.from_.nodeId ∈ ["a", "b"] → c.to_.nodeId ∈ ["a", "b"] →
        (l.map ShaderNode.id).indexOf c.from_.nodeId <
          (l.map ShaderNode.id).indexOf c.to_.nodeId := by
  refine getTopologicallySorted_correct _ (by decide) (by decide) ?_
  have hedge : ∀ u v, edgeRel [⟨"c0", ⟨"a", "out"⟩, ⟨"b", "in"⟩⟩] u v →
      u = "a" ∧ v = "b" := by
    rintro u v ⟨c, hc, hf, ht⟩
    have : c = ⟨"c0", ⟨"a", "out"⟩, ⟨"b", "in"⟩⟩ := by simpa using hc
    subst this
    exact ⟨hf.symm, ht.symm⟩
  have hlast : ∀ u v, Relation.TransGen (edgeRel [⟨"c0", ⟨"a", "out"⟩, ⟨"b", "in"⟩⟩]) u v →
      v = "b" := by
    intro u v h
    induction h with
    | single h' => exact (hedge _ _ h').2
    | tail _ h' _ => exact (hedge _ _ h').2
  have hfirst : ∀ u v, Relation.TransGen (edgeRel [⟨"c0", ⟨"a", "out"⟩, ⟨"b", "in"⟩⟩]) u v →
      u = "a" := by
    intro u v h
    induction h with
    | single h' => exact (hedge _ _ h').1
    | tail _ _ ih => exact ih
  intro x hx
  have h1 := hlast x x hx
  have h2 := hfirst x x hx
  rw [h1] at h2
  exact absurd h2 (by decide)

/-! ### Deserialization -/

-- `mapHas` tests key membership.
theorem mapHas_iff {α : Type} {l : List (String × α)} {k : String} :
    mapHas l k = true ↔ k ∈ l.map Prod.fst := by
  unfold mapHas
  exact mapGet_isSome

-- Replaying `addNode` over fresh, pairwise distinct ids succeeds and appends
-- each node keyed by its id.
theorem addNodesFromJSON_ok :
    ∀ (nodes : List ShaderNode) (s : BuilderState),
      (nodes.map ShaderNode.id).Nodup →
      (∀ n ∈ nodes, n.id ∉ s.nodes.map Prod.fst) →
      addNodesFromJSON s nodes =
        .ok { s with nodes := s.nodes ++ nodes.map (fun n => (n.id, n)) } := by
  intro nodes
  induction nodes with
  | nil =>
    intro s _ _
    simp [addNodesFromJSON]
  | cons n ns ih =>
    intro s hnd hfresh
    simp only [List.map_cons, List.nodup_cons] at hnd
    have hhas : ¬ mapHas s.nodes n.id = true := by
      rw [mapHas_iff]
      exact hfresh n (by simp)
    simp only [addNodesFromJSON, addNode, hhas, Bool.false_eq_true, if_false]
    rw [ih { s with nodes := s.nodes ++ [(n.id, n)] } hnd.2 ?_]
    · simp
    · intro m hm
      simp only [List.map_append, List.mem_append]
      push_neg
      constructor
      · exact hfresh m (by simp [hm])
      · simp only [List.map_cons, List.map_nil, List.mem_singleton]
        intro hid
        exact hnd.1 (hid ▸ List.mem_map.mpr ⟨m, hm, rfl⟩)

/-- Counterexample to C7 as stated: a serialized graph whose only connection
dangles on both unknown endpoints loads via `fromJSON` without error, and
`getTopologicallySorted` on the loaded builder also succeeds, silently
ignoring the dangling edge instead of surfacing an error. -/
theorem fromJSON_dangling_counterexample :
    fromJSON "g"
      [⟨"a", "source", "Source", [], [("out", ⟨"out", "texture"⟩)], [], none⟩]
      [⟨"cx", ⟨"ghost", "out"⟩, ⟨"a", "in"⟩⟩] =
      .ok (BuilderState.mk "g"
        [("a", ⟨"a", "source", "Source", [], [("out", ⟨"out", "texture"⟩)], [], none⟩)]
        [⟨"cx", ⟨"ghost", "out"⟩, ⟨"a", "in"⟩⟩] 0) ∧
    getTopologicallySorted (BuilderState.mk "g"
      [("a", ⟨"a", "source", "Source", [], [("out", ⟨"out", "texture"⟩)], [], none⟩)]
      [⟨"cx", ⟨"ghost", "out"⟩, ⟨"a", "in"⟩⟩] 0) =
      .ok [⟨"a", "source", "Source", [], [("out", ⟨"out", "texture"⟩)], [], none⟩] := by
  refine ⟨by decide, by decide⟩

/-- C7 (amended): `fromJSON` performs no validation of the connection list —
it succeeds for any serialized graph with distinct node ids and restores the
connections verbatim, dangling references included; and as long as the
connection set is acyclic, `getTopologicallySorted` on the loaded builder also
succeeds, silently skipping endpoints that name missing nodes rather than
surfacing an error. -/
theorem fromJSON_ignores_dangling (gid : String) (nodes : List ShaderNode)
    (conns : List Connection)
    (hnd : (nodes.map ShaderNode.id).Nodup) :
    ∃ st, fromJSON gid nodes conns = .ok st ∧
      st.connections = conns ∧
      st.nodes = nodes.map (fun n => (n.id, n)) ∧
      (Acyclic conns → ∃ l, getTopologicallySorted st = .ok l ∧ List.Perm l nodes) := by
  have hadd := addNodesFromJSON_ok nodes ⟨gid, [], [], 0⟩ hnd (by simp)
  refine ⟨⟨gid, nodes.map (fun n => (n.id, n)), conns, 0⟩, ?_, rfl, rfl, ?_⟩
  · simp only [fromJSON, hadd]
    rfl
  · intro hacyc
    have hkeys : ((nodes.map (fun n => (n.id, n))).map Prod.fst).Nodup := by
      rw [List.map_map]
      exact hnd
    have hids : ∀ p ∈ nodes.map (fun n => (n.id, n)), p.2.id = p.1 := by
      intro p hp
      rcases List.mem_map.mp hp with ⟨m, -, rfl⟩
      rfl
    obtain ⟨l, hok, hperm, -⟩ :=
      getTopologicallySorted_spec ⟨gid, nodes.map (fun n => (n.id, n)), conns, 0⟩
        hkeys hids hacyc
    refine ⟨l, hok, ?_⟩
    refine hperm.trans ?_
    rw [List.map_map]
    have : (Prod.snd ∘ fun n : ShaderNode => (n.id, n)) = id := rfl
    rw [this, List.map_id]

theorem fromJSON_ignores_dangling_witness :
    ([(⟨"a", "source", "Source", [], [("out", ⟨"out", "texture"⟩)], [], none⟩ : ShaderNode)].map
      ShaderNode.id).Nodup ∧
    ∃ st, fromJSON "g"
        [⟨"a", "source", "Source", [], [("out", ⟨"out", "texture"⟩)], [], none⟩]
        [⟨"cx", ⟨"ghost", "out"⟩, ⟨"a", "in"⟩⟩] = .ok st ∧
      st.connections = [⟨"cx", ⟨"ghost", "out"⟩, ⟨"a", "in"⟩⟩] ∧
      st.nodes = [(⟨"a", "source", "Source", [], [("out", ⟨"out", "texture"⟩)], [], none⟩ :
        ShaderNode)].map (fun n => (n.id, n)) ∧
      (Acyclic [⟨"cx", ⟨"ghost", "out"⟩, ⟨"a", "in"⟩⟩] →
        ∃ l, getTopologicallySorted st = .ok l ∧
          List.Perm l [⟨"a", "source", "Source", [], [("out", ⟨"out", "texture"⟩)], [], none⟩]) :=
  ⟨by decide, fromJSON_ignores_dangling "g"
    [⟨"a", "source", "Source", [], [("out", ⟨"out", "texture"⟩)], [], none⟩]
    [⟨"cx", ⟨"ghost", "out"⟩, ⟨"a", "in"⟩⟩] (by decide)⟩

/-! ### Compiler output naming -/

-- `buildPasses` emits one pass per node.
theorem buildPasses_length (s : BuilderState) (rids : List String) (total : Nat) :
    ∀ ns i, (buildPasses s rids total i ns).length = ns.length := by
  intro ns
  induction ns with
  | nil => intro i; rfl
  | cons n rest ih =>
    intro i
    simp only [buildPasses, List.length_cons, ih]

-- The output of the pass at position `j` is decided by `passOutput`.
theorem buildPasses_get_output (s : BuilderState) (rids : List String) (total : Nat) :
    ∀ ns i j (h : j < (buildPasses s rids total i ns).length),
      ((buildPasses s rids total i ns).get ⟨j, h⟩).output = passOutput total (i + j) := by
  intro ns
  induction ns with
  | nil =>
    intro i j h
    simp [buildPasses] at h
  | cons n rest ih =>
    intro i j h
    cases j with
    | zero => simp [buildPasses]
    | succ j' =>
      simp only [buildPasses, List.get_cons_succ]
      rw [ih (i + 1) j' _]
      congr 1
      omega

/-- C5: a successful `compile` produces a nonempty pass list whose final pass
has output `"screen"`, while every earlier pass's output is the synthesized
intermediate texture of its position, distinct from `"screen"`; no two passes
share an output identifier. -/
theorem compile_screen_output (s : BuilderState) (passes : List CompiledPass)
    (hc : compile s = .ok passes) (hne : passes ≠ []) :
    (passes.getLast hne).output = "screen" ∧
    (∀ i (h : i < passes.length), i + 1 < passes.length →
      (passes.get ⟨i, h⟩).output = intermediateTexture i ∧
      (passes.get ⟨i, h⟩).output ≠ "screen") ∧
    (∀ i j (hi : i < passes.length) (hj : j < passes.length), i ≠ j →
      (passes.get ⟨i, hi⟩).output ≠ (passes.get ⟨j, hj⟩).output) := by
  unfold compile at hc
  cases hsort : getTopologicallySorted s with
  | error e =>
    rw [hsort] at hc
    exact absurd hc (by simp)
  | ok sorted =>
    rw [hsort] at hc
    simp only [Except.ok.injEq] at hc
    subst hc
    have hlen := buildPasses_length s
      ((sorted.filter (fun n => n.type != "source")).map ShaderNode.id)
      (sorted.filter (fun n => n.type != "source")).length
      (sorted.filter (fun n => n.type != "source")) 0
    have hout : ∀ j (h : j < (buildPasses s
        ((sorted.filter (fun n => n.type != "source")).map ShaderNode.id)
        (sorted.filter (fun n => n.type != "source")).length 0
        (sorted.filter (fun n => n.type != "source"))).length),
        ((buildPasses s
          ((sorted.filter (fun n => n.type != "source")).map ShaderNode.id)
          (sorted.filter (fun n => n.type != "source")).length 0
          (sorted.filter (fun n => n.type != "source"))).get ⟨j, h⟩).output =
          passOutput (sorted.filter (fun n => n.type != "source")).length j := by
      intro j h
      have := buildPasses_get_output s
        ((sorted.filter (fun n => n.type != "source")).map ShaderNode.id)
        (sorted.filter (fun n => n.type != "source")).length
        (sorted.filter (fun n => n.type != "source")) 0 j h
      simpa using this
    have hpos : 0 < (sorted.filter (fun n => n.type != "source")).length := by
      rw [← hlen]
      exact List.length_pos.mpr hne
    refine ⟨?_, ?_, ?_⟩
    · rw [List.getLast_eq_getElem]
      have hlast := hout ((buildPasses s
        ((sorted.filter (fun n => n.type != "source")).map ShaderNode.id)
        (sorted.filter (fun n => n.type != "source")).length 0
        (sorted.filter (fun n => n.type != "source"))).length - 1) (by omega)
      rw [List.get_eq_getElem] at hlast
      rw [hlast]
      unfold passOutput
      rw [hlen, if_pos (by omega)]
    · intro i h hi1
      rw [hout]
      rw [hlen] at hi1
      unfold passOutput
      rw [if_neg (by omega)]
      exact ⟨rfl, intermediateTexture_ne_screen i⟩
    · intro i j hi hj hij
      rw [hout, hout]
      rw [hlen] at hi hj
      unfold passOutput
      by_cases hi1 : i + 1 = (sorted.filter (fun n => n.type != "source")).length <;>
        by_cases hj1 : j + 1 = (sorted.filter (fun n => n.type != "source")).length
      · omega
      · rw [if_pos hi1, if_neg hj1]
        exact (intermediateTexture_ne_screen j).symm
      · rw [if_neg hi1, if_pos hj1]
        exact intermediateTexture_ne_screen i
      · rw [if_neg hi1, if_neg hj1]
        intro h
        exact hij (intermediateTexture_injective h)

theorem compile_screen_output_witness :
    compile (BuilderState.mk "g"
      [("src", ⟨"src", "source", "Source", [], [("out", ⟨"out", "texture"⟩)], [], none⟩),
       ("eff", ⟨"eff", "effect", "brightness", [("in", ⟨"in", "texture", true⟩)],
         [("out", ⟨"out", "texture"⟩)], [], none⟩),
       ("out", ⟨"out", "output", "Output", [("in", ⟨"in", "texture", true⟩)], [], [], none⟩)]
      [⟨"c1", ⟨"src", "out"⟩, ⟨"eff", "in"⟩⟩, ⟨"c2", ⟨"eff", "out"⟩, ⟨"out", "in"⟩⟩] 0) =
      .ok [⟨"pass-0", ["eff"], "", ["src"], "temp-1", []⟩,
           ⟨"pass-1", ["out"], "", ["temp-1"], "screen", []⟩] ∧
    (([⟨"pass-0", ["eff"], "", ["src"], "temp-1", []⟩,
       ⟨"pass-1", ["out"], "", ["temp-1"], "screen", []⟩] :
        List CompiledPass).getLast (by decide)).output = "screen" := by
  refine ⟨by decide, ?_⟩
  exact (compile_screen_output
    (BuilderState.mk "g"
      [("src", ⟨"src", "source", "Source", [], [("out", ⟨"out", "texture"⟩)], [], none⟩),
       ("eff", ⟨"eff", "effect", "brightness", [("in", ⟨"in", "texture", true⟩)],
         [("out", ⟨"out", "texture"⟩)], [], none⟩),
       ("out", ⟨"out", "output", "Output", [("in", ⟨"in", "texture", true⟩)], [], [], none⟩)]
      [⟨"c1", ⟨"src", "out"⟩, ⟨"eff", "in"⟩⟩, ⟨"c2", ⟨"eff", "out"⟩, ⟨"out", "in"⟩⟩] 0)
    [⟨"pass-0", ["eff"], "", ["src"], "temp-1", []⟩,
     ⟨"pass-1", ["out"], "", ["temp-1"], "screen", []⟩]
    (by decide) (by decide)).1

end Freecut
